import Mathlib

set_option autoImplicit false

/-!
Shallow embedding of the neo-go ledger-execution core: the NEP-5 native
token template (`transfer`, `mint`, `burn`, the per-token `incBalance`
hooks of the governance token NEO and the utility token GAS), the DAO
typed accessors, the native-contract dispatcher and the multisignature
check interop.  Go byte slices are `List Nat` (one entry per byte),
`int64` amounts are `Int`, fallible code returns `Except`/`Option`, and
a host panic (which faults the VM invocation) is an explicit `fault`
result.
-/

/-- Raw byte sequence (a Go byte slice); each entry stands for one byte. -/
abbrev Bytes := List Nat

/-- A 160-bit hash (account / script identifier), as its 20 big-endian bytes. -/
abbrev Uint160 := Bytes

/-- state.NEP5BalanceState: balance of a NEP5 token (int64 in the source). -/
structure NEP5BalanceState where
  balance : Int
deriving DecidableEq, Repr

/-- state.NEOBalanceState: NEO balance plus the height it was last updated. -/
structure NEOBalanceState where
  balance : Int
  balanceHeight : Nat
deriving DecidableEq, Repr

/-- state.Account, restricted to the fields the native tokens use:
the script hash, the NEO balance state and the GAS balance state. -/
structure Account where
  scriptHash : Uint160
  neo : NEOBalanceState
  gas : NEP5BalanceState
deriving DecidableEq, Repr

/-- state.NewAccount: a fresh account for the given hash, all balances zero. -/
def NewAccount (h : Uint160) : Account :=
  { scriptHash := h, neo := { balance := 0, balanceHeight := 0 }, gas := { balance := 0 } }

/-- state.NotificationEvent as emitted by nep5TokenNative.emitTransfer: the
emitting contract's hash and the payload array
[ByteArray "Transfer", from-or-null, to-or-null, BigInteger amount],
flattened into its four components. -/
structure NotificationEvent where
  scriptHash : Uint160
  eventName : String
  fromAddr : Option Uint160
  toAddr : Option Uint160
  amount : Int
deriving DecidableEq, Repr

/-- Assoc-list form of a keyed Put into the typed KV store: replace the value
stored under the key, or append a fresh record at the end. -/
def storePut {α : Type} : List (Bytes × α) → Bytes → α → List (Bytes × α)
  | [], k, v => [(k, v)]
  | (k', v') :: rest, k, v =>
    if k' = k then (k, v) :: rest else (k', v') :: storePut rest k v

/-- Assoc-list form of a keyed Get from the typed KV store. -/
def storeGet {α : Type} : List (Bytes × α) → Bytes → Option α
  | [], _ => none
  | (k', v') :: rest, k => if k' = k then some v' else storeGet rest k

/-- interopContext, restricted to what the native tokens read and write: the
account store (dao, keyed by 20-byte hash), the accumulated notification
list, the in-memory total supplies of the two concrete natives and the
index of the block being applied (`ic.block`, absent outside a block). -/
structure InteropContext where
  accounts : List (Bytes × Account)
  notifications : List NotificationEvent
  neoTotalSupply : Int
  gasTotalSupply : Int
  blockIndex : Option Nat
deriving DecidableEq, Repr

/-- dao.GetAccountStateOrNew: the stored account, or a fresh one. -/
def getAccountStateOrNew (ic : InteropContext) (h : Uint160) : Account :=
  (storeGet ic.accounts h).getD (NewAccount h)

/-- dao.PutAccountState: store the account under its own script hash. -/
def putAccountState (ic : InteropContext) (a : Account) : InteropContext :=
  { ic with accounts := storePut ic.accounts a.scriptHash a }

/-- Placeholder for the concrete 20-byte script hash of the NEO native
(Hash160 of the syscall script for "Neo.Native.Tokens.NEO"; the hash
function is an out-of-scope primitive, so the value is abstracted as a
fixed constant distinct from the GAS one). -/
def neoHash : Uint160 := [78, 69, 79]

/-- Placeholder for the concrete 20-byte script hash of the GAS native
(Hash160 of the syscall script for "Neo.Native.Tokens.GAS"). -/
def gasHash : Uint160 := [71, 65, 83]

/-- The two concrete native tokens. -/
inductive TokenKind
  | neo
  | gas
deriving DecidableEq, Repr

/-- The script hash field of the given native token. -/
def tokenHash : TokenKind → Uint160
  | .neo => neoHash
  | .gas => gasHash

/-- The given token's balance inside an account record. -/
def tokenBalance : TokenKind → Account → Int
  | .neo, a => a.neo.balance
  | .gas, a => a.gas.balance

/-- The given token's in-memory totalSupply field. -/
def tokenTotalSupply : TokenKind → InteropContext → Int
  | .neo, ic => ic.neoTotalSupply
  | .gas, ic => ic.gasTotalSupply

/-- totalSupply += amount for the given token. -/
def addTokenTotalSupply : TokenKind → InteropContext → Int → InteropContext
  | .neo, ic, amount => { ic with neoTotalSupply := ic.neoTotalSupply + amount }
  | .gas, ic, amount => { ic with gasTotalSupply := ic.gasTotalSupply + amount }

/-- nep5TokenNative.emitTransfer: append one Transfer notification carrying
the token hash, the optional endpoints and the amount. -/
def emitTransfer (ic : InteropContext) (tokHash : Uint160)
    (fromAddr toAddr : Option Uint160) (amount : Int) : InteropContext :=
  { ic with notifications := ic.notifications ++
      [{ scriptHash := tokHash, eventName := "Transfer",
         fromAddr := fromAddr, toAddr := toAddr, amount := amount }] }

/-- The Transfer notification record with the given hash, endpoints and
amount (the record emitTransfer appends). -/
def transferEvent (tokHash : Uint160) (fromAddr toAddr : Option Uint160)
    (amount : Int) : NotificationEvent :=
  { scriptHash := tokHash, eventName := "Transfer", fromAddr := fromAddr,
    toAddr := toAddr, amount := amount }

/-- Blockchainer.CalculateClaimable (an external collaborator): from a NEO
balance and a height interval, the claimable (sysFee, netFee) gas or an
error.  Kept abstract: every theorem quantifies over it. -/
abbrev CalcClaimable := Int → Nat → Nat → Except String (Int × Int)

/-- Result of an incBalance hook: success with the updated dao state and
account value, an error return (the dao state at the point of return is
kept, mirroring that earlier writes are not undone), or a host panic that
faults the whole VM invocation. -/
inductive IncRes
  | ok (ic : InteropContext) (acc : Account)
  | err (ic : InteropContext) (msg : String)
  | fault
deriving DecidableEq, Repr

/-- Result of mint/burn: success or a host panic faulting the invocation. -/
inductive MintRes
  | ok (ic : InteropContext)
  | fault
deriving DecidableEq, Repr

/-- Result of nep5TokenNative.transfer: success, an error return (dao state
at the point of return kept), or a host panic. -/
inductive TransferRes
  | ok (ic : InteropContext)
  | err (ic : InteropContext) (msg : String)
  | fault
deriving DecidableEq, Repr

/-- gasNative.increaseBalance: zero is a no-op, a negative amount larger in
magnitude than the balance is refused, otherwise the GAS balance moves. -/
def gasNative.increaseBalance (ic : InteropContext) (acc : Account) (amount : Int) : IncRes :=
  if amount = 0 then .ok ic acc
  else if amount < 0 ∧ acc.gas.balance < -amount then .err ic "insufficient funds"
  else .ok ic { acc with gas := { balance := acc.gas.balance + amount } }

/-- nep5TokenNative.mint specialised to the GAS token (this is the instance
the NEO token's gas distribution calls through its back-reference):
negative amounts panic, zero is ignored, otherwise the account fetched
from the dao is credited, stored, totalSupply grows and a Transfer
notification with null origin is emitted. -/
def gasNative.mint (ic : InteropContext) (h : Uint160) (amount : Int) : MintRes :=
  if amount < 0 then .fault
  else if amount = 0 then .ok ic
  else
    let acc := getAccountStateOrNew ic h
    match gasNative.increaseBalance ic acc amount with
    | .ok ic1 acc1 =>
      let ic2 := putAccountState ic1 acc1
      let ic3 := { ic2 with gasTotalSupply := ic2.gasTotalSupply + amount }
      .ok (emitTransfer ic3 gasHash none (some h) amount)
    | .err _ _ => .fault
    | .fault => .fault

/-- neoNative.distributeGas: outside a block this is a no-op; inside a block
the claimable gas for the account's NEO balance since its balance height is
computed, the balance height moves to the current block and the gas is
minted to the account's script hash (the mint refetches the account from
the dao, mirroring the aliasing in the source). -/
def neoNative.distributeGas (cc : CalcClaimable) (ic : InteropContext) (acc : Account) : IncRes :=
  match ic.blockIndex with
  | none => .ok ic acc
  | some idx =>
    match cc acc.neo.balance acc.neo.balanceHeight idx with
    | .error e => .err ic e
    | .ok (sys, net) =>
      let acc1 := { acc with neo := { acc.neo with balanceHeight := idx } }
      match gasNative.mint ic acc.scriptHash (sys + net) with
      | .fault => .fault
      | .ok ic1 => .ok ic1 acc1

/-- neoNative.increaseBalance: zero is a no-op, a negative amount larger in
magnitude than the NEO balance is refused, otherwise claimable gas is
distributed first and then the NEO balance moves. -/
def neoNative.increaseBalance (cc : CalcClaimable) (ic : InteropContext)
    (acc : Account) (amount : Int) : IncRes :=
  if amount = 0 then .ok ic acc
  else if amount < 0 ∧ acc.neo.balance < -amount then .err ic "insufficient funds"
  else
    match neoNative.distributeGas cc ic acc with
    | .fault => .fault
    | .err ic1 m => .err ic1 m
    | .ok ic1 acc1 =>
      .ok ic1 { acc1 with neo := { acc1.neo with balance := acc1.neo.balance + amount } }

/-- The incBalance hook carried by each concrete token. -/
def incBalance (cc : CalcClaimable) : TokenKind → InteropContext → Account → Int → IncRes
  | .neo, ic, acc, amount => neoNative.increaseBalance cc ic acc amount
  | .gas, ic, acc, amount => gasNative.increaseBalance ic acc amount

/-- nep5TokenNative.mint: a negative amount panics (faulting the VM
invocation), zero is ignored, otherwise the single account is credited
through the token's incBalance hook and stored, totalSupply grows by the
amount and one Transfer notification with null origin is emitted. -/
def nep5TokenNative.mint (cc : CalcClaimable) (k : TokenKind) (ic : InteropContext)
    (h : Uint160) (amount : Int) : MintRes :=
  if amount < 0 then .fault
  else if amount = 0 then .ok ic
  else
    let acc := getAccountStateOrNew ic h
    match incBalance cc k ic acc amount with
    | .ok ic1 acc1 =>
      let ic2 := putAccountState ic1 acc1
      let ic3 := addTokenTotalSupply k ic2 amount
      .ok (emitTransfer ic3 (tokenHash k) none (some h) amount)
    | .err _ _ => .fault
    | .fault => .fault

/-- nep5TokenNative.burn: a negative amount panics, zero is ignored,
otherwise the single account is debited through the incBalance hook (which
panics on insufficient funds), totalSupply shrinks by the amount and one
Transfer notification with null destination is emitted. -/
def nep5TokenNative.burn (cc : CalcClaimable) (k : TokenKind) (ic : InteropContext)
    (h : Uint160) (amount : Int) : MintRes :=
  if amount < 0 then .fault
  else if amount = 0 then .ok ic
  else
    let acc := getAccountStateOrNew ic h
    match incBalance cc k ic acc (-amount) with
    | .ok ic1 acc1 =>
      let ic2 := putAccountState ic1 acc1
      let ic3 := addTokenTotalSupply k ic2 (-amount)
      .ok (emitTransfer ic3 (tokenHash k) (some h) none amount)
    | .err _ _ => .fault
    | .fault => .fault

/-- nep5TokenNative.transfer: a negative amount is an error return; when
`from = to` or the amount is zero the from account alone receives a
zero-delta update; otherwise the from account and then the to account are
both updated through the incBalance hook with the (positive) amount; on
success one Transfer notification carrying from, to and the amount is
appended. -/
def nep5TokenNative.transfer (cc : CalcClaimable) (k : TokenKind) (ic : InteropContext)
    (fromA toA : Uint160) (amount : Int) : TransferRes :=
  if amount < 0 then .err ic "negative amount"
  else
    let accFrom := getAccountStateOrNew ic fromA
    let inc := if fromA = toA ∨ amount = 0 then 0 else amount
    match incBalance cc k ic accFrom inc with
    | .fault => .fault
    | .err ic1 m => .err ic1 m
    | .ok ic1 accFrom1 =>
      let ic2 := putAccountState ic1 accFrom1
      if fromA = toA ∨ amount = 0 then
        .ok (emitTransfer ic2 (tokenHash k) (some fromA) (some toA) amount)
      else
        let accTo := getAccountStateOrNew ic2 toA
        match incBalance cc k ic2 accTo amount with
        | .fault => .fault
        | .err ic3 m => .err ic3 m
        | .ok ic3 accTo1 =>
          .ok (emitTransfer (putAccountState ic3 accTo1) (tokenHash k)
            (some fromA) (some toA) amount)

/-- nep5TokenNative.Transfer, the exported method: runs the internal
transfer and pushes NewBoolItem(err == nil); a panic inside faults the
invocation, so nothing is pushed (`none`). -/
def nep5TokenNative.Transfer (cc : CalcClaimable) (k : TokenKind) (ic : InteropContext)
    (fromA toA : Uint160) (amount : Int) : Option (InteropContext × Bool) :=
  match nep5TokenNative.transfer cc k ic fromA toA amount with
  | .ok ic' => some (ic', true)
  | .err ic' _ => some (ic', false)
  | .fault => none

/-- One native-token operation of a block's execution. -/
inductive Op
  | mint (k : TokenKind) (h : Uint160) (amount : Int)
  | burn (k : TokenKind) (h : Uint160) (amount : Int)
  | transfer (k : TokenKind) (fromA toA : Uint160) (amount : Int)
deriving DecidableEq, Repr

/-- Application of one operation by the block applier: a host panic is a
VMFault, whose per-transaction DAO writes are discarded; an error return
from transfer still commits the writes made before the error (the method
merely pushes false and the script halts). -/
def applyOp (cc : CalcClaimable) (ic : InteropContext) : Op → InteropContext
  | .mint k h amount =>
    match nep5TokenNative.mint cc k ic h amount with
    | .ok ic' => ic'
    | .fault => ic
  | .burn k h amount =>
    match nep5TokenNative.burn cc k ic h amount with
    | .ok ic' => ic'
    | .fault => ic
  | .transfer k fromA toA amount =>
    match nep5TokenNative.transfer cc k ic fromA toA amount with
    | .ok ic' => ic'
    | .err ic' _ => ic'
    | .fault => ic

/-- Application of a whole operation sequence. -/
def applySeq (cc : CalcClaimable) (ic : InteropContext) (ops : List Op) : InteropContext :=
  ops.foldl (applyOp cc) ic

/-- The empty ledger state: no accounts, no notifications, zero supplies. -/
def initialContext (blk : Option Nat) : InteropContext :=
  { accounts := [], notifications := [], neoTotalSupply := 0,
    gasTotalSupply := 0, blockIndex := blk }

/-- Sum of the given token's balance over every stored account record. -/
def balanceSum (k : TokenKind) (ic : InteropContext) : Int :=
  (ic.accounts.map fun p => tokenBalance k p.2).sum

/-- Every stored account record sits under its own script hash (always true
of states produced through dao.PutAccountState, which keys by it). -/
def WellKeyed (ic : InteropContext) : Prop :=
  ∀ p ∈ ic.accounts, (p : Bytes × Account).2.scriptHash = p.1

/-- Every stored balance of both native tokens is non-negative. -/
def NonNeg (ic : InteropContext) : Prop :=
  ∀ p ∈ ic.accounts, 0 ≤ (p : Bytes × Account).2.neo.balance ∧ 0 ≤ p.2.gas.balance

instance (ic : InteropContext) : Decidable (WellKeyed ic) := by
  unfold WellKeyed; infer_instance

instance (ic : InteropContext) : Decidable (NonNeg ic) := by
  unfold NonNeg; infer_instance

/-! ### The same token operations under Go int64 semantics

The definitions above use unbounded integers.  The source stores balances,
amounts and total supplies in Go `int64`, whose arithmetic wraps at 2^63
(two's complement); `-amount` likewise wraps at MinInt64.  The following
definitions repeat the same source lines with the wrap applied at every
int64 operation, which is the semantics the running program actually has.
-/

/-- Two's-complement wrap of a Go int64 arithmetic result: the value
congruent mod 2^64 that lies in [-2^63, 2^63). -/
def wrap64 (x : Int) : Int := (x + 2 ^ 63) % 2 ^ 64 - 2 ^ 63

/-- gasNative.increaseBalance under int64 semantics: `-amount` and
`Balance + amount` both wrap. -/
def gasNative.increaseBalanceI64 (ic : InteropContext) (acc : Account) (amount : Int) :
    IncRes :=
  if amount = 0 then .ok ic acc
  else if amount < 0 ∧ acc.gas.balance < wrap64 (-amount) then .err ic "insufficient funds"
  else .ok ic { acc with gas := { balance := wrap64 (acc.gas.balance + amount) } }

/-- nep5TokenNative.mint specialised to GAS under int64 semantics. -/
def gasNative.mintI64 (ic : InteropContext) (h : Uint160) (amount : Int) : MintRes :=
  if amount < 0 then .fault
  else if amount = 0 then .ok ic
  else
    let acc := getAccountStateOrNew ic h
    match gasNative.increaseBalanceI64 ic acc amount with
    | .ok ic1 acc1 =>
      let ic2 := putAccountState ic1 acc1
      let ic3 := { ic2 with gasTotalSupply := wrap64 (ic2.gasTotalSupply + amount) }
      .ok (emitTransfer ic3 gasHash none (some h) amount)
    | .err _ _ => .fault
    | .fault => .fault

/-- neoNative.distributeGas under int64 semantics: `int64(sys + net)`
wraps. -/
def neoNative.distributeGasI64 (cc : CalcClaimable) (ic : InteropContext) (acc : Account) :
    IncRes :=
  match ic.blockIndex with
  | none => .ok ic acc
  | some idx =>
    match cc acc.neo.balance acc.neo.balanceHeight idx with
    | .error e => .err ic e
    | .ok (sys, net) =>
      let acc1 := { acc with neo := { acc.neo with balanceHeight := idx } }
      match gasNative.mintI64 ic acc.scriptHash (wrap64 (sys + net)) with
      | .fault => .fault
      | .ok ic1 => .ok ic1 acc1

/-- neoNative.increaseBalance under int64 semantics. -/
def neoNative.increaseBalanceI64 (cc : CalcClaimable) (ic : InteropContext)
    (acc : Account) (amount : Int) : IncRes :=
  if amount = 0 then .ok ic acc
  else if amount < 0 ∧ acc.neo.balance < wrap64 (-amount) then .err ic "insufficient funds"
  else
    match neoNative.distributeGasI64 cc ic acc with
    | .fault => .fault
    | .err ic1 m => .err ic1 m
    | .ok ic1 acc1 =>
      .ok ic1 { acc1 with neo := { acc1.neo with
        balance := wrap64 (acc1.neo.balance + amount) } }

/-- The incBalance hook of each token, int64 semantics. -/
def incBalanceI64 (cc : CalcClaimable) :
    TokenKind → InteropContext → Account → Int → IncRes
  | .neo, ic, acc, amount => neoNative.increaseBalanceI64 cc ic acc amount
  | .gas, ic, acc, amount => gasNative.increaseBalanceI64 ic acc amount

/-- totalSupply += amount under int64 semantics. -/
def addTokenTotalSupplyI64 : TokenKind → InteropContext → Int → InteropContext
  | .neo, ic, amount => { ic with neoTotalSupply := wrap64 (ic.neoTotalSupply + amount) }
  | .gas, ic, amount => { ic with gasTotalSupply := wrap64 (ic.gasTotalSupply + amount) }

/-- totalSupply -= amount under int64 semantics. -/
def subTokenTotalSupplyI64 : TokenKind → InteropContext → Int → InteropContext
  | .neo, ic, amount => { ic with neoTotalSupply := wrap64 (ic.neoTotalSupply - amount) }
  | .gas, ic, amount => { ic with gasTotalSupply := wrap64 (ic.gasTotalSupply - amount) }

/-- nep5TokenNative.mint under int64 semantics. -/
def nep5TokenNative.mintI64 (cc : CalcClaimable) (k : TokenKind) (ic : InteropContext)
    (h : Uint160) (amount : Int) : MintRes :=
  if amount < 0 then .fault
  else if amount = 0 then .ok ic
  else
    let acc := getAccountStateOrNew ic h
    match incBalanceI64 cc k ic acc amount with
    | .ok ic1 acc1 =>
      let ic2 := putAccountState ic1 acc1
      let ic3 := addTokenTotalSupplyI64 k ic2 amount
      .ok (emitTransfer ic3 (tokenHash k) none (some h) amount)
    | .err _ _ => .fault
    | .fault => .fault

/-- nep5TokenNative.burn under int64 semantics: the debit `-amount`
wraps. -/
def nep5TokenNative.burnI64 (cc : CalcClaimable) (k : TokenKind) (ic : InteropContext)
    (h : Uint160) (amount : Int) : MintRes :=
  if amount < 0 then .fault
  else if amount = 0 then .ok ic
  else
    let acc := getAccountStateOrNew ic h
    match incBalanceI64 cc k ic acc (wrap64 (-amount)) with
    | .ok ic1 acc1 =>
      let ic2 := putAccountState ic1 acc1
      let ic3 := subTokenTotalSupplyI64 k ic2 amount
      .ok (emitTransfer ic3 (tokenHash k) (some h) none amount)
    | .err _ _ => .fault
    | .fault => .fault

/-- nep5TokenNative.transfer under int64 semantics. -/
def nep5TokenNative.transferI64 (cc : CalcClaimable) (k : TokenKind) (ic : InteropContext)
    (fromA toA : Uint160) (amount : Int) : TransferRes :=
  if amount < 0 then .err ic "negative amount"
  else
    let accFrom := getAccountStateOrNew ic fromA
    let inc := if fromA = toA ∨ amount = 0 then 0 else amount
    match incBalanceI64 cc k ic accFrom inc with
    | .fault => .fault
    | .err ic1 m => .err ic1 m
    | .ok ic1 accFrom1 =>
      let ic2 := putAccountState ic1 accFrom1
      if fromA = toA ∨ amount = 0 then
        .ok (emitTransfer ic2 (tokenHash k) (some fromA) (some toA) amount)
      else
        let accTo := getAccountStateOrNew ic2 toA
        match incBalanceI64 cc k ic2 accTo amount with
        | .fault => .fault
        | .err ic3 m => .err ic3 m
        | .ok ic3 accTo1 =>
          .ok (emitTransfer (putAccountState ic3 accTo1) (tokenHash k)
            (some fromA) (some toA) amount)

/-- Application of one operation by the block applier, int64 semantics. -/
def applyOpI64 (cc : CalcClaimable) (ic : InteropContext) : Op → InteropContext
  | .mint k h amount =>
    match nep5TokenNative.mintI64 cc k ic h amount with
    | .ok ic' => ic'
    | .fault => ic
  | .burn k h amount =>
    match nep5TokenNative.burnI64 cc k ic h amount with
    | .ok ic' => ic'
    | .fault => ic
  | .transfer k fromA toA amount =>
    match nep5TokenNative.transferI64 cc k ic fromA toA amount with
    | .ok ic' => ic'
    | .err ic' _ => ic'
    | .fault => ic

/-- Application of a whole operation sequence, int64 semantics. -/
def applySeqI64 (cc : CalcClaimable) (ic : InteropContext) (ops : List Op) : InteropContext :=
  ops.foldl (applyOpI64 cc) ic

/-! ### NEP-5 transfer-log key layout (dao, part of the key schema) -/

/-- Modelled from the spec: the one-byte storage prefix for NEP-5 transfer
log pages, `0xA2` (the storage-prefix enumeration is not under src/). -/
def STNEP5Transfers : Nat := 0xA2

/-- util.Uint160Size: a 160-bit hash is 20 bytes. -/
def Uint160Size : Nat := 20

/-- Go `copy(dst[off:], src)`: write the source bytes element-wise starting
at the offset; positions beyond the destination's length are dropped,
mirroring Go's clipping (List.set out of range is a no-op). -/
def copyInto : Bytes → Nat → Bytes → Bytes
  | dst, _, [] => dst
  | dst, off, b :: rest => copyInto (dst.set off b) (off + 1) rest

/-- binary.LittleEndian.PutUint32(dst[off:], x): write the four
little-endian bytes of x at positions off..off+3. -/
def putUint32LE (dst : Bytes) (off : Nat) (x : Nat) : Bytes :=
  ((((dst.set off (x % 256)).set (off + 1) (x / 256 % 256)).set
    (off + 2) (x / 65536 % 256)).set (off + 3) (x / 16777216 % 256))

/-- getNEP5TransferLogKey, line for line: a 25-byte zeroed buffer, the
prefix at position 0, the 20 account-hash bytes copied in from position 1,
and the 4 little-endian page-index bytes written at position
`util.Uint160Size` (that is 20, not 21). -/
def getNEP5TransferLogKey (acc : Uint160) (index : Nat) : Bytes :=
  let key := List.replicate (1 + Uint160Size + 4) 0
  let key := key.set 0 STNEP5Transfers
  let key := copyInto key 1 acc
  putUint32LE key Uint160Size index

/-- The four little-endian bytes of a 32-bit value. -/
def uint32LEBytes (x : Nat) : Bytes :=
  [x % 256, x / 256 % 256, x / 65536 % 256, x / 16777216 % 256]

/-- Modelled from the spec: the claimed key layout for an NEP-5 transfer-log
page, the prefix byte 0xA2 followed by the 20 big-endian account-hash
bytes followed by the 4-byte little-endian page index. -/
def specTransferLogKey (acc : Uint160) (index : Nat) : Bytes :=
  [STNEP5Transfers] ++ acc ++ uint32LEBytes index

/-! ### Native-contract dispatch -/

/-- Stack items, restricted to the shapes the native dispatcher touches. -/
inductive StackItem
  | byteArray (bs : Bytes)
  | bigInteger (n : Int)
  | boolItem (b : Bool)
  | arrayItem (items : List StackItem)

/-- Modelled from the spec: vm.Element.Bytes() pops typed arguments with
explicit conversions; a non-byte-array shape here faults the VM (the vm
package is not under src/). -/
def itemBytes : StackItem → Option Bytes
  | .byteArray bs => some bs
  | _ => none

/-- Modelled from the spec: vm.Element.Array() faults on anything that is
not an array item (the vm package is not under src/). -/
def itemArray : StackItem → Option (List StackItem)
  | .arrayItem items => some items
  | _ => none

/-- A native method body: the popped argument array to the returned stack
item (the interop-context threading of handlers is orthogonal to the
dispatch logic modelled here). -/
abbrev NativeMethodFn := List StackItem → StackItem

/-- A registered native contract: its script hash and its method table
(Go's map[string]MethodMD, with string keys as their byte sequences). -/
structure NativeContractM where
  hash : Uint160
  methods : List (Bytes × NativeMethodFn)

/-- interopContext.getNativeInterop, the dispatcher body: refuse unless the
invoking context's script hash equals the native's hash; then pop the
method name and the argument array, look the name up in the method table,
refuse unknown names, and push the handler's result onto the stack. -/
def getNativeInterop (c : NativeContractM) (ctxScriptHash : Uint160)
    (estack : List StackItem) : Except String (List StackItem) :=
  if ctxScriptHash = c.hash then
    match estack with
    | nameItem :: argsItem :: rest =>
      match itemBytes nameItem, itemArray argsItem with
      | some nameBytes, some args =>
        match storeGet c.methods nameBytes with
        | some f => .ok (f args :: rest)
        | none => .error "method not found"
      | _, _ => .error "invalid arguments"
    | _ => .error "stack underflow"
  else .error "invalid hash"

/-! ### Validators: registration and getValidators -/

/-- state.Validator, restricted to the fields getValidators reads: the
public key (as its encoded bytes), the registration flag and the votes. -/
structure Validator where
  publicKey : Bytes
  registered : Bool
  votes : Int
deriving DecidableEq, Repr

/-- Modelled from the spec: state.Validator.RegisteredAndHasVotes (the
state package is not under src/): registered with strictly positive votes. -/
def Validator.registeredAndHasVotes (v : Validator) : Bool :=
  v.registered && decide (0 < v.votes)

/-- dao.GetValidatorState: the stored record for the public key, if any. -/
def dao.GetValidatorState (s : List (Bytes × Validator)) (pub : Bytes) : Option Validator :=
  storeGet s pub

/-- dao.PutValidatorState: store the record under its public key. -/
def dao.PutValidatorState (s : List (Bytes × Validator)) (v : Validator) :
    List (Bytes × Validator) :=
  storePut s v.publicKey v

/-- neoNative.registerValidatorInternal: when a record already exists the
nil error is returned unchanged (a successful no-op); otherwise a fresh
zero record keyed by the public key is stored.  The second component is
the returned error (`none` = nil). -/
def neoNative.registerValidatorInternal (s : List (Bytes × Validator)) (pub : Bytes) :
    List (Bytes × Validator) × Option String :=
  match dao.GetValidatorState s pub with
  | some _ => (s, none)
  | none => (dao.PutValidatorState s { publicKey := pub, registered := false, votes := 0 }, none)

/-- neoNative.registerValidator: run the internal registration and push
NewBoolItem(err == nil). -/
def neoNative.registerValidator (s : List (Bytes × Validator)) (pub : Bytes) :
    List (Bytes × Validator) × StackItem :=
  let r := neoNative.registerValidatorInternal s pub
  (r.1, .boolItem r.2.isNone)

/-- Modelled from the spec: keys.PublicKey.Cmp as the lexicographic strict
order on the encoded key bytes (the keys package is not under src/). -/
def pkLt : Bytes → Bytes → Bool
  | [], [] => false
  | [], _ :: _ => true
  | _ :: _, [] => false
  | a :: as, b :: bs => if a < b then true else if b < a then false else pkLt as bs

/-- The non-strict companion of pkLt, the order sort.Sort establishes. -/
def pkLe (a b : Bytes) : Prop := pkLt b a = false

/-- The comparator of the sort.Slice call in neoNative.getValidators:
unregistered validators last, then votes descending, ties by public key. -/
def lessValidator (a b : Validator) : Prop :=
  (if a.registered ≠ b.registered then a.registered = true
   else if a.votes ≠ b.votes then b.votes < a.votes
   else pkLt a.publicKey b.publicKey = true)

instance : DecidableRel lessValidator := by
  unfold lessValidator; infer_instance

instance : DecidableRel pkLe := by
  unfold pkLe; infer_instance

/-- Modelled from the spec: keys.PublicKeys.Unique (the keys package is not
under src/): the distinct keys, keeping first occurrences. -/
def uniqueKeys : List Bytes → List Bytes
  | [] => []
  | k :: ks => k :: (uniqueKeys ks).filter (fun x => x ≠ k)

/-- Modelled from the spec: state.ValidatorsCount.GetWeightedAverage (the
state package is not under src/): the stored tallies map a committee size
to its accumulated weight; the result is the weight-averaged size,
0 when the total weight is zero. -/
def getWeightedAverage (vc : List (Nat × Int)) : Int :=
  let sumWeight := (vc.map fun p => p.2).sum
  let sumValue := (vc.map fun p => (p.1 : Int) * p.2).sum
  if sumWeight = 0 then 0 else sumValue / sumWeight

/-- The committee size getValidators works with: the weighted average of
the stored tallies, raised to the standby count when smaller. -/
def committeeSize (sb : List Bytes) (vc : List (Nat × Int)) : Nat :=
  max (getWeightedAverage vc).toNat sb.length

/-- The top-up loop of getValidators: walk the unique standby keys while
the result is still short of count, appending the ones not yet present. -/
def topUp (result : List Bytes) (usb : List Bytes) (count : Nat) : List Bytes :=
  match usb with
  | [] => result
  | k :: ks =>
    if result.length < count then
      topUp (if k ∈ result then result else result ++ [k]) ks count
    else result

/-- neoNative.getValidators: with no stored tallies the standby list is
returned as configured; otherwise the stored validators are sorted by
(registered, votes desc, key asc), the ones registered-with-votes or
standby are kept, the list is truncated to the committee size or topped up
from the unique standby keys, and finally sorted by public key. -/
def neoNative.getValidators (sb : List Bytes) (vc : List (Nat × Int))
    (vals : List Validator) : List Bytes :=
  if vc = [] then sb
  else
    let sorted := List.insertionSort lessValidator vals
    let count := committeeSize sb vc
    let usb := uniqueKeys sb
    let result := (sorted.filter fun v =>
      v.registeredAndHasVotes || decide (v.publicKey ∈ usb)).map Validator.publicKey
    let result := if count ≤ result.length then result.take count
                  else topUp result usb count
    List.insertionSort pkLe result

/-! ### Multisignature check -/

/-- Modelled from the spec: vm.CheckMultisigPar (the vm package is not
under src/) walks the public-key list in order, matching the signatures in
order; it succeeds iff every signature matches some key not yet consumed. -/
def vmCheckMultisigPar (verify : Bytes → Bytes → Bool) : List Bytes → List Bytes → Bool
  | _, [] => true
  | [], _ :: _ => false
  | k :: ks, s :: ss =>
    if verify s k then vmCheckMultisigPar verify ks ss
    else vmCheckMultisigPar verify ks (s :: ss)

/-- interopContext.ecdsaCheckMultisig, after the popped message has been
hashed and the key and signature lists popped: more signatures than keys
is an error (faulting the VM); otherwise the boolean verdict of the
multisignature walk is pushed.  The signature-against-key primitive is the
abstract `verify`. -/
def interopContext.ecdsaCheckMultisig (verify : Bytes → Bytes → Bool)
    (pkeys sigs : List Bytes) : Except String Bool :=
  if pkeys.length < sigs.length then .error "more signatures than there are keys"
  else .ok (vmCheckMultisigPar verify pkeys sigs)

/-- The declarative reading of the multisignature walk: the signatures can
be matched, in order, against pairwise-later public keys. -/
inductive SigsMatch (verify : Bytes → Bytes → Bool) : List Bytes → List Bytes → Prop
  | nil (ks : List Bytes) : SigsMatch verify ks []
  | here {k : Bytes} {ks : List Bytes} {s : Bytes} {ss : List Bytes} :
      verify s k = true → SigsMatch verify ks ss → SigsMatch verify (k :: ks) (s :: ss)
  | skip {k : Bytes} {ks : List Bytes} {s : Bytes} {ss : List Bytes} :
      SigsMatch verify ks (s :: ss) → SigsMatch verify (k :: ks) (s :: ss)

/-! ### DAO identity checks on assets and contracts -/

/-- state.Asset, restricted to the identity field checked by the dao plus
one payload field. -/
structure Asset where
  id : Bytes
  available : Int
deriving DecidableEq, Repr

/-- state.Contract, restricted to its script; the script hash is computed
from it by the abstract Hash160. -/
structure Contract where
  script : Bytes
deriving DecidableEq, Repr

/-- dao.GetAssetState: decode the record stored under the asset id, then
refuse it when its own ID field differs from the key it was fetched by. -/
def dao.GetAssetState (assets : List (Bytes × Asset)) (assetID : Bytes) :
    Except String Asset :=
  match storeGet assets assetID with
  | none => .error "key not found"
  | some a =>
    if a.id ≠ assetID then .error "found asset id is not equal to expected"
    else .ok a

/-- dao.GetContractState: decode the record stored under the script hash,
then refuse it when its recomputed script hash differs from the key.
`h160` is the abstract Hash160 primitive. -/
def dao.GetContractState (h160 : Bytes → Bytes) (contracts : List (Bytes × Contract))
    (hash : Bytes) : Except String Contract :=
  match storeGet contracts hash with
  | none => .error "key not found"
  | some c =>
    if h160 c.script ≠ hash then .error "found script hash is not equal to expected"
    else .ok c

/-! ### Concrete instances used by the closed witness statements -/

/-- A trivial claimable-gas oracle: no gas accrues. -/
def ccZero : CalcClaimable := fun _ _ _ => .ok (0, 0)

/-- An example 20-byte account hash. -/
def accBytes20 : Uint160 :=
  [1, 2, 3, 4, 5, 6, 7, 8, 9, 10, 11, 12, 13, 14, 15, 16, 17, 18, 19, 20]

/-- Two example account hashes. -/
def hashA : Uint160 := [10]

/-- Two example account hashes, second. -/
def hashB : Uint160 := [11]

/-- An example registered native with a single method "sum" (key bytes
[115, 117, 109]) whose handler returns the integer 42. -/
def sumNativeExample : NativeContractM :=
  { hash := [7], methods := [([115, 117, 109], fun _ => .bigInteger 42)] }

/-- An example signature-against-key verifier: byte-wise equality. -/
def verifyExample : Bytes → Bytes → Bool := fun s k => decide (s = k)

/-! ### Store lemmas -/

theorem storeGet_storePut_self {α : Type} (s : List (Bytes × α)) (k : Bytes) (v : α) :
    storeGet (storePut s k v) k = some v := by
  induction s with
  | nil => simp [storePut, storeGet]
  | cons p rest ih =>
    obtain ⟨k', v'⟩ := p
    by_cases hk : k' = k
    · simp [storePut, storeGet, hk]
    · simp [storePut, storeGet, hk, ih]

theorem storeGet_storePut_ne {α : Type} (s : List (Bytes × α)) (k key : Bytes) (v : α)
    (hne : key ≠ k) : storeGet (storePut s k v) key = storeGet s key := by
  induction s with
  | nil => simp [storePut, storeGet, Ne.symm hne]
  | cons p rest ih =>
    obtain ⟨k', v'⟩ := p
    by_cases hk : k' = k
    · subst hk
      simp [storePut, storeGet, Ne.symm hne]
    · simp only [storePut, if_neg hk, storeGet]
      by_cases hk2 : k' = key <;> simp [hk2, ih]

theorem mem_storePut {α : Type} {s : List (Bytes × α)} {k : Bytes} {v : α}
    {p : Bytes × α} (hp : p ∈ storePut s k v) : p = (k, v) ∨ p ∈ s := by
  induction s with
  | nil => simpa [storePut] using hp
  | cons q rest ih =>
    obtain ⟨k', v'⟩ := q
    by_cases hk : k' = k
    · simp only [storePut, if_pos hk, List.mem_cons] at hp
      rcases hp with h | h
      · exact .inl h
      · exact .inr (List.mem_cons_of_mem _ h)
    · simp only [storePut, if_neg hk, List.mem_cons] at hp
      rcases hp with h | h
      · exact .inr (by simp [h])
      · rcases ih h with h2 | h2
        · exact .inl h2
        · exact .inr (List.mem_cons_of_mem _ h2)

theorem storeGet_mem {α : Type} {s : List (Bytes × α)} {k : Bytes} {v : α}
    (h : storeGet s k = some v) : (k, v) ∈ s := by
  induction s with
  | nil => simp [storeGet] at h
  | cons q rest ih =>
    obtain ⟨k', v'⟩ := q
    by_cases hk : k' = k
    · subst hk
      have hv : v' = v := by simpa [storeGet] using h
      subst hv
      exact List.mem_cons_self _ _
    · simp only [storeGet, if_neg hk] at h
      exact List.mem_cons_of_mem _ (ih h)

/-! ### Claim theorems -/

/-- Claim C5 (code_bug): the NEP-5 transfer-log page key is claimed to be
the prefix byte 0xA2, the 20 big-endian account-hash bytes, then the
4-byte little-endian page index.  The code instead writes the index at
offset 20 (util.Uint160Size, not 1 + util.Uint160Size), overwriting the
final hash byte and leaving the 25th byte always zero: at the account
hash 01..14 (hex) and page index 1 the produced key keeps only the first
19 hash bytes and differs from the claimed layout. -/
theorem C5_transferLogKey_overwrites_hash :
    getNEP5TransferLogKey accBytes20 1 =
      [0xA2, 1, 2, 3, 4, 5, 6, 7, 8, 9, 10, 11, 12, 13, 14, 15, 16, 17, 18, 19, 1, 0, 0, 0, 0]
  ∧ getNEP5TransferLogKey accBytes20 1 ≠ specTransferLogKey accBytes20 1 := by
  constructor
  · rfl
  · decide

/-- Claim C10: dao.GetAssetState only returns an asset whose ID field
equals the requested hash, dao.GetContractState only returns a contract
whose recomputed script hash equals the requested hash, and a stored
record whose decoded identity differs from its key yields an error
instead of a value. -/
theorem C10_dao_identity_checks (h160 : Bytes → Bytes) (assets : List (Bytes × Asset))
    (contracts : List (Bytes × Contract)) (hid hc : Bytes) :
    (∀ a, dao.GetAssetState assets hid = .ok a → a.id = hid)
  ∧ (∀ c, dao.GetContractState h160 contracts hc = .ok c → h160 c.script = hc)
  ∧ (∀ a, storeGet assets hid = some a → a.id ≠ hid →
      dao.GetAssetState assets hid = .error "found asset id is not equal to expected")
  ∧ (∀ c, storeGet contracts hc = some c → h160 c.script ≠ hc →
      dao.GetContractState h160 contracts hc = .error "found script hash is not equal to expected") := by
  refine ⟨?_, ?_, ?_, ?_⟩
  · intro a ha
    unfold dao.GetAssetState at ha
    cases hg : storeGet assets hid with
    | none => simp [hg] at ha
    | some b =>
      simp only [hg] at ha
      by_cases hb : b.id ≠ hid
      · simp [hb] at ha
      · push_neg at hb
        simp only [ne_eq, hb, not_true_eq_false, if_false, Except.ok.injEq] at ha
        rw [← ha]; exact hb
  · intro c hcok
    unfold dao.GetContractState at hcok
    cases hg : storeGet contracts hc with
    | none => simp [hg] at hcok
    | some d =>
      simp only [hg] at hcok
      by_cases hd : h160 d.script ≠ hc
      · simp [hd] at hcok
      · push_neg at hd
        simp only [ne_eq, hd, not_true_eq_false, if_false, Except.ok.injEq] at hcok
        rw [← hcok]; exact hd
  · intro a hg hne
    unfold dao.GetAssetState
    simp [hg, hne]
  · intro c hg hne
    unfold dao.GetContractState
    simp [hg, hne]

/-- Witness for C10 at concrete stores: a well-keyed asset comes back with
its ID equal to the key, and an asset stored under a key different from
its own ID yields the identity error. -/
theorem C10_dao_identity_checks_witness :
    (Asset.mk [1] 5).id = [1]
  ∧ dao.GetAssetState [([2], Asset.mk [3] 0)] [2] =
      .error "found asset id is not equal to expected" :=
  ⟨(C10_dao_identity_checks (fun b => b) [([1], Asset.mk [1] 5)] [] [1] []).1
      (Asset.mk [1] 5) (by rfl),
   (C10_dao_identity_checks (fun b => b) [([2], Asset.mk [3] 0)] [] [2] []).2.2.1
      (Asset.mk [3] 0) (by rfl) (by decide)⟩

/-- Claim C8: registering a public key that already has a stored validator
record is a no-op reporting success (nil error, so registerValidator
pushes true) that leaves the whole validator store unchanged; registering
a key with no record stores a fresh zero record keyed by that key. -/
theorem C8_registerValidator_idempotent (s : List (Bytes × Validator)) (pub : Bytes) :
    (∀ v, dao.GetValidatorState s pub = some v →
        neoNative.registerValidatorInternal s pub = (s, none)
      ∧ (neoNative.registerValidator s pub).2 = .boolItem true)
  ∧ (dao.GetValidatorState s pub = none →
        neoNative.registerValidatorInternal s pub =
          (dao.PutValidatorState s { publicKey := pub, registered := false, votes := 0 }, none)
      ∧ dao.GetValidatorState (neoNative.registerValidatorInternal s pub).1 pub =
          some { publicKey := pub, registered := false, votes := 0 }
      ∧ (neoNative.registerValidator s pub).2 = .boolItem true) := by
  constructor
  · intro v hv
    constructor
    · unfold neoNative.registerValidatorInternal
      rw [hv]
    · unfold neoNative.registerValidator neoNative.registerValidatorInternal
      rw [hv]
      rfl
  · intro hn
    refine ⟨?_, ?_, ?_⟩
    · unfold neoNative.registerValidatorInternal
      rw [hn]
    · unfold neoNative.registerValidatorInternal
      rw [hn]
      unfold dao.GetValidatorState dao.PutValidatorState
      exact storeGet_storePut_self s pub _
    · unfold neoNative.registerValidator neoNative.registerValidatorInternal
      rw [hn]
      rfl

/-- Witness for C8 at a concrete store: re-registering the present key [5]
changes nothing and reports true; registering the absent key [6] stores a
fresh record. -/
theorem C8_registerValidator_idempotent_witness :
    (neoNative.registerValidatorInternal
        [([5], Validator.mk [5] true 3)] [5] = ([([5], Validator.mk [5] true 3)], none)
      ∧ (neoNative.registerValidator [([5], Validator.mk [5] true 3)] [5]).2 = .boolItem true)
  ∧ (neoNative.registerValidatorInternal [([5], Validator.mk [5] true 3)] [6] =
        (dao.PutValidatorState [([5], Validator.mk [5] true 3)]
          { publicKey := [6], registered := false, votes := 0 }, none)
      ∧ dao.GetValidatorState
          (neoNative.registerValidatorInternal [([5], Validator.mk [5] true 3)] [6]).1 [6] =
          some { publicKey := [6], registered := false, votes := 0 }
      ∧ (neoNative.registerValidator [([5], Validator.mk [5] true 3)] [6]).2 = .boolItem true) :=
  ⟨(C8_registerValidator_idempotent [([5], Validator.mk [5] true 3)] [5]).1
      (Validator.mk [5] true 3) (by rfl),
   (C8_registerValidator_idempotent [([5], Validator.mk [5] true 3)] [6]).2 (by rfl)⟩

/-- Claim C6: the native dispatcher refuses whenever the invoking context's
script hash differs from the native contract's hash; with a matching hash
and a popped method name present in the method table the handler runs on
the popped argument array and its result is pushed onto the stack; an
unknown method name is an error. -/
theorem C6_native_dispatch (c : NativeContractM) (h : Uint160) (estack : List StackItem) :
    (h ≠ c.hash → getNativeInterop c h estack = .error "invalid hash")
  ∧ (∀ nameBytes args rest f, h = c.hash →
      storeGet c.methods nameBytes = some f →
      getNativeInterop c h (.byteArray nameBytes :: .arrayItem args :: rest) =
        .ok (f args :: rest))
  ∧ (∀ nameBytes args rest, h = c.hash →
      storeGet c.methods nameBytes = none →
      getNativeInterop c h (.byteArray nameBytes :: .arrayItem args :: rest) =
        .error "method not found") := by
  refine ⟨?_, ?_, ?_⟩
  · intro hne
    unfold getNativeInterop
    simp [hne]
  · intro nameBytes args rest f heq hget
    unfold getNativeInterop
    simp [heq, itemBytes, itemArray, hget]
  · intro nameBytes args rest heq hget
    unfold getNativeInterop
    simp [heq, itemBytes, itemArray, hget]

/-- Witness for C6 on a concrete native: invoking "sum" (bytes
[115, 117, 109]) on the example contract from its own context pushes the
handler result 42 above the remaining stack; a foreign context is
refused; an unknown name errors. -/
theorem C6_native_dispatch_witness :
    getNativeInterop sumNativeExample [7]
        [.byteArray [115, 117, 109], .arrayItem [], .boolItem true] =
      .ok [.bigInteger 42, .boolItem true]
  ∧ getNativeInterop sumNativeExample [8]
      [.byteArray [115, 117, 109], .arrayItem [], .boolItem true] = .error "invalid hash"
  ∧ getNativeInterop sumNativeExample [7] [.byteArray [115], .arrayItem []] =
      .error "method not found" :=
  ⟨(C6_native_dispatch sumNativeExample [7] []).2.1 [115, 117, 109] [] [.boolItem true]
      (fun _ => .bigInteger 42) rfl rfl,
   (C6_native_dispatch sumNativeExample [8]
      [.byteArray [115, 117, 109], .arrayItem [], .boolItem true]).1 (by decide),
   (C6_native_dispatch sumNativeExample [7] []).2.2 [115] [] [] rfl rfl⟩

/-! ### Multisignature walk: soundness and completeness of the greedy scan -/

theorem vmCheckMultisigPar_sound (verify : Bytes → Bytes → Bool) :
    ∀ (ks ss : List Bytes), vmCheckMultisigPar verify ks ss = true → SigsMatch verify ks ss := by
  intro ks
  induction ks with
  | nil =>
    intro ss h
    cases ss with
    | nil => exact .nil []
    | cons s ss => simp [vmCheckMultisigPar] at h
  | cons k ks ih =>
    intro ss h
    cases ss with
    | nil => exact .nil _
    | cons s ss =>
      by_cases hv : verify s k = true
      · simp only [vmCheckMultisigPar, hv, if_true] at h
        exact .here hv (ih ss h)
      · simp only [vmCheckMultisigPar, hv, if_false] at h
        exact .skip (ih (s :: ss) h)

theorem vmCheckMultisigPar_complete_aux (verify : Bytes → Bytes → Bool) :
    ∀ (ks ss ks' : List Bytes), List.Sublist ks' ks →
      List.Forall₂ (fun s k => verify s k = true) ss ks' →
      vmCheckMultisigPar verify ks ss = true := by
  intro ks
  induction ks with
  | nil =>
    intro ss ks' hsub hall
    have : ks' = [] := List.sublist_nil.mp hsub
    subst this
    cases hall
    rfl
  | cons k ks ih =>
    intro ss ks' hsub hall
    cases ss with
    | nil => rfl
    | cons s ss =>
      cases hall with
      | cons hv hall' =>
        rename_i k0 ks0
        cases hsub with
        | cons₂ _ hsub' =>
          simp only [vmCheckMultisigPar, hv, if_true]
          exact ih ss ks0 hsub' hall'
        | cons _ hsub' =>
          by_cases hvk : verify s k = true
          · simp only [vmCheckMultisigPar, hvk, if_true]
            have hks0 : List.Sublist ks0 ks := (List.sublist_cons_self k0 ks0).trans hsub'
            exact ih ss ks0 hks0 hall'
          · simp only [vmCheckMultisigPar, hvk, if_false]
            exact ih (s :: ss) (k0 :: ks0) hsub' (.cons hv hall')

theorem sigsMatch_exists_sublist {verify : Bytes → Bytes → Bool} {ks ss : List Bytes}
    (h : SigsMatch verify ks ss) :
    ∃ ks', List.Sublist ks' ks ∧ List.Forall₂ (fun s k => verify s k = true) ss ks' := by
  induction h with
  | nil ks => exact ⟨[], List.nil_sublist ks, .nil⟩
  | here hv _ ih =>
    obtain ⟨ks', hsub, hall⟩ := ih
    exact ⟨_ :: ks', hsub.cons₂ _, .cons hv hall⟩
  | skip _ ih =>
    obtain ⟨ks', hsub, hall⟩ := ih
    exact ⟨ks', hsub.cons _, hall⟩

theorem vmCheckMultisigPar_iff (verify : Bytes → Bytes → Bool) (ks ss : List Bytes) :
    vmCheckMultisigPar verify ks ss = true ↔ SigsMatch verify ks ss := by
  constructor
  · exact vmCheckMultisigPar_sound verify ks ss
  · intro h
    obtain ⟨ks', hsub, hall⟩ := sigsMatch_exists_sublist h
    exact vmCheckMultisigPar_complete_aux verify ks ss ks' hsub hall

/-- Claim C9: ecdsaCheckMultisig errors (faulting the VM, pushing nothing)
whenever the popped signature list is longer than the popped key list;
otherwise it pushes the boolean verdict of the multisignature walk, which
is true exactly when the signatures can be matched, in order, against
public keys not yet consumed. -/
theorem C9_ecdsaCheckMultisig (verify : Bytes → Bytes → Bool) (pkeys sigs : List Bytes) :
    (pkeys.length < sigs.length →
      interopContext.ecdsaCheckMultisig verify pkeys sigs =
        .error "more signatures than there are keys")
  ∧ (sigs.length ≤ pkeys.length →
      interopContext.ecdsaCheckMultisig verify pkeys sigs =
        .ok (vmCheckMultisigPar verify pkeys sigs)
    ∧ (vmCheckMultisigPar verify pkeys sigs = true ↔ SigsMatch verify pkeys sigs)) := by
  constructor
  · intro hlt
    unfold interopContext.ecdsaCheckMultisig
    simp [hlt]
  · intro hle
    constructor
    · unfold interopContext.ecdsaCheckMultisig
      simp [Nat.not_lt.mpr hle]
    · exact vmCheckMultisigPar_iff verify pkeys sigs

/-- Witness for C9: with byte-wise-equality verification, three keys and
the two signatures [[1], [3]] in order the walk succeeds and the matching
exists; the hypothesis 2 ≤ 3 is discharged concretely. -/
theorem C9_ecdsaCheckMultisig_witness :
    interopContext.ecdsaCheckMultisig verifyExample [[1], [2], [3]] [[1], [3]] =
      .ok (vmCheckMultisigPar verifyExample [[1], [2], [3]] [[1], [3]])
  ∧ (vmCheckMultisigPar verifyExample [[1], [2], [3]] [[1], [3]] = true ↔
      SigsMatch verifyExample [[1], [2], [3]] [[1], [3]]) :=
  (C9_ecdsaCheckMultisig verifyExample [[1], [2], [3]] [[1], [3]]).2 (by decide)

/-! ### Projection lemmas for the interop-context operations -/

@[simp] theorem emitTransfer_accounts (ic : InteropContext) (th : Uint160)
    (f t : Option Uint160) (a : Int) : (emitTransfer ic th f t a).accounts = ic.accounts := rfl

@[simp] theorem emitTransfer_blockIndex (ic : InteropContext) (th : Uint160)
    (f t : Option Uint160) (a : Int) : (emitTransfer ic th f t a).blockIndex = ic.blockIndex := rfl

@[simp] theorem emitTransfer_neoTotalSupply (ic : InteropContext) (th : Uint160)
    (f t : Option Uint160) (a : Int) :
    (emitTransfer ic th f t a).neoTotalSupply = ic.neoTotalSupply := rfl

@[simp] theorem emitTransfer_gasTotalSupply (ic : InteropContext) (th : Uint160)
    (f t : Option Uint160) (a : Int) :
    (emitTransfer ic th f t a).gasTotalSupply = ic.gasTotalSupply := rfl

@[simp] theorem emitTransfer_notifications (ic : InteropContext) (th : Uint160)
    (f t : Option Uint160) (a : Int) :
    (emitTransfer ic th f t a).notifications = ic.notifications ++
      [{ scriptHash := th, eventName := "Transfer", fromAddr := f, toAddr := t, amount := a }] := rfl

@[simp] theorem putAccountState_accounts (ic : InteropContext) (a : Account) :
    (putAccountState ic a).accounts = storePut ic.accounts a.scriptHash a := rfl

@[simp] theorem putAccountState_notifications (ic : InteropContext) (a : Account) :
    (putAccountState ic a).notifications = ic.notifications := rfl

@[simp] theorem putAccountState_blockIndex (ic : InteropContext) (a : Account) :
    (putAccountState ic a).blockIndex = ic.blockIndex := rfl

@[simp] theorem putAccountState_neoTotalSupply (ic : InteropContext) (a : Account) :
    (putAccountState ic a).neoTotalSupply = ic.neoTotalSupply := rfl

@[simp] theorem putAccountState_gasTotalSupply (ic : InteropContext) (a : Account) :
    (putAccountState ic a).gasTotalSupply = ic.gasTotalSupply := rfl

/-! ### Well-keyedness and non-negativity transport -/

theorem wellKeyed_putAccountState {ic : InteropContext} (hwk : WellKeyed ic) (a : Account) :
    WellKeyed (putAccountState ic a) := by
  intro p hp
  simp only [putAccountState_accounts] at hp
  rcases mem_storePut hp with h | h
  · subst h; rfl
  · exact hwk p h

theorem nonNeg_putAccountState {ic : InteropContext} {a : Account} (hnn : NonNeg ic)
    (ha : 0 ≤ a.neo.balance ∧ 0 ≤ a.gas.balance) : NonNeg (putAccountState ic a) := by
  intro p hp
  simp only [putAccountState_accounts] at hp
  rcases mem_storePut hp with h | h
  · subst h; exact ha
  · exact hnn p h

theorem scriptHash_getAccountStateOrNew {ic : InteropContext} (hwk : WellKeyed ic)
    (h : Uint160) : (getAccountStateOrNew ic h).scriptHash = h := by
  unfold getAccountStateOrNew
  cases hg : storeGet ic.accounts h with
  | none => rfl
  | some a =>
    simpa using hwk (h, a) (storeGet_mem hg)

theorem nonNeg_getAccountStateOrNew {ic : InteropContext} (hnn : NonNeg ic) (h : Uint160) :
    0 ≤ (getAccountStateOrNew ic h).neo.balance ∧
      0 ≤ (getAccountStateOrNew ic h).gas.balance := by
  unfold getAccountStateOrNew
  cases hg : storeGet ic.accounts h with
  | none => simp [NewAccount]
  | some a =>
    simpa using hnn (h, a) (storeGet_mem hg)

/-! ### Structural lemmas for the GAS mint and the incBalance hooks -/

theorem storeGet_putAccountState_self (ic : InteropContext) (g : Account) :
    storeGet (putAccountState ic g).accounts g.scriptHash = some g := by
  simp only [putAccountState_accounts]
  exact storeGet_storePut_self _ _ _

theorem storeGet_putAccountState_ne (ic : InteropContext) (g : Account) (key : Uint160)
    (hne : key ≠ g.scriptHash) :
    storeGet (putAccountState ic g).accounts key = storeGet ic.accounts key := by
  simp only [putAccountState_accounts]
  exact storeGet_storePut_ne _ _ _ _ hne

theorem getAccountStateOrNew_congr {ic ic' : InteropContext} (h : Uint160)
    (heq : storeGet ic'.accounts h = storeGet ic.accounts h) :
    getAccountStateOrNew ic' h = getAccountStateOrNew ic h := by
  unfold getAccountStateOrNew
  rw [heq]

theorem getAccountStateOrNew_eq_of_storeGet {ic : InteropContext} {h : Uint160} {g : Account}
    (hg : storeGet ic.accounts h = some g) : getAccountStateOrNew ic h = g := by
  unfold getAccountStateOrNew
  rw [hg]
  rfl

theorem gasMint_ok_spec {ic : InteropContext} {h : Uint160} {amount : Int} {ic' : InteropContext}
    (hwk : WellKeyed ic) (hok : gasNative.mint ic h amount = .ok ic') :
    WellKeyed ic'
  ∧ (∀ key, key ≠ h → storeGet ic'.accounts key = storeGet ic.accounts key)
  ∧ (∀ key, (getAccountStateOrNew ic' key).neo = (getAccountStateOrNew ic key).neo)
  ∧ ic'.neoTotalSupply = ic.neoTotalSupply
  ∧ ic'.blockIndex = ic.blockIndex
  ∧ (∃ extra, ic'.notifications = ic.notifications ++ extra ∧
      ∀ e ∈ extra, e.fromAddr = none ∧ e.toAddr = some h)
  ∧ (NonNeg ic → NonNeg ic') := by
  by_cases h1 : amount < 0
  · simp [gasNative.mint, if_pos h1] at hok
  by_cases h2 : amount = 0
  · simp only [gasNative.mint, if_neg h1, if_pos h2, MintRes.ok.injEq] at hok
    subst hok
    exact ⟨hwk, fun _ _ => rfl, fun _ => rfl, rfl, rfl, ⟨[], by simp, by simp⟩, fun hn => hn⟩
  · have hsh : (getAccountStateOrNew ic h).scriptHash = h := scriptHash_getAccountStateOrNew hwk h
    set g : Account := { getAccountStateOrNew ic h with
      gas := { balance := (getAccountStateOrNew ic h).gas.balance + amount } } with hg
    have hgsh : g.scriptHash = h := by rw [hg]; exact hsh
    have hinc : gasNative.increaseBalance ic (getAccountStateOrNew ic h) amount =
        .ok ic g := by
      rw [hg]
      unfold gasNative.increaseBalance
      simp [h1, h2]
    simp only [gasNative.mint, if_neg h1, if_neg h2, hinc, MintRes.ok.injEq] at hok
    have haccs : ic'.accounts = storePut ic.accounts g.scriptHash g := by rw [← hok]; rfl
    have hnot : ic'.notifications = ic.notifications ++
        [{ scriptHash := gasHash, eventName := "Transfer", fromAddr := none,
           toAddr := some h, amount := amount }] := by rw [← hok]; rfl
    have hnts : ic'.neoTotalSupply = ic.neoTotalSupply := by rw [← hok]; rfl
    have hblk : ic'.blockIndex = ic.blockIndex := by rw [← hok]; rfl
    have hget : ∀ key, key ≠ h → storeGet ic'.accounts key = storeGet ic.accounts key := by
      intro key hkey
      rw [haccs, hgsh]
      exact storeGet_storePut_ne _ _ _ _ hkey
    refine ⟨?_, hget, ?_, hnts, hblk, ?_, ?_⟩
    · intro p hp
      rw [haccs] at hp
      rcases mem_storePut hp with he | he
      · subst he; rfl
      · exact hwk p he
    · intro key
      by_cases hkey : key = h
      · subst hkey
        have : storeGet ic'.accounts key = some g := by
          rw [haccs, hgsh]
          exact storeGet_storePut_self _ _ _
        rw [getAccountStateOrNew_eq_of_storeGet this, hg]
      · rw [getAccountStateOrNew_congr key (hget key hkey)]
    · refine ⟨[{ scriptHash := gasHash, eventName := "Transfer", fromAddr := none,
                 toAddr := some h, amount := amount }], hnot, ?_⟩
      intro e he
      rw [List.mem_singleton] at he
      subst he
      exact ⟨rfl, rfl⟩
    · intro hnn p hp
      rw [haccs] at hp
      rcases mem_storePut hp with he | he
      · subst he
        have hacc := nonNeg_getAccountStateOrNew hnn h
        refine ⟨by rw [hg]; exact hacc.1, ?_⟩
        rw [hg]
        have hpos : 0 < amount := lt_of_le_of_ne (not_lt.mp h1) (Ne.symm h2)
        exact add_nonneg hacc.2 (le_of_lt hpos)
      · exact hnn p he

theorem distributeGas_ok_spec {cc : CalcClaimable} {ic : InteropContext} {acc : Account}
    {ic' : InteropContext} {acc' : Account} (hwk : WellKeyed ic)
    (hok : neoNative.distributeGas cc ic acc = .ok ic' acc') :
    WellKeyed ic'
  ∧ acc'.scriptHash = acc.scriptHash
  ∧ acc'.neo.balance = acc.neo.balance
  ∧ acc'.gas = acc.gas
  ∧ (∀ key, key ≠ acc.scriptHash → storeGet ic'.accounts key = storeGet ic.accounts key)
  ∧ (∀ key, (getAccountStateOrNew ic' key).neo = (getAccountStateOrNew ic key).neo)
  ∧ ic'.neoTotalSupply = ic.neoTotalSupply
  ∧ ic'.blockIndex = ic.blockIndex
  ∧ (∃ extra, ic'.notifications = ic.notifications ++ extra ∧ ∀ e ∈ extra, e.fromAddr = none)
  ∧ (NonNeg ic → NonNeg ic') := by
  unfold neoNative.distributeGas at hok
  rcases hblock : ic.blockIndex with _ | idx
  · rw [hblock] at hok
    simp only [IncRes.ok.injEq] at hok
    obtain ⟨rfl, rfl⟩ := hok
    exact ⟨hwk, rfl, rfl, rfl, fun _ _ => rfl, fun _ => rfl, rfl, hblock,
      ⟨[], by simp, by simp⟩, fun hn => hn⟩
  · rw [hblock] at hok
    rcases hcc : cc acc.neo.balance acc.neo.balanceHeight idx with e | p
    · simp only [hcc] at hok
      exact absurd hok (by simp)
    · obtain ⟨sys, net⟩ := p
      rcases hm : gasNative.mint ic acc.scriptHash (sys + net) with ic1 | _
      · simp only [hcc, hm, IncRes.ok.injEq] at hok
        obtain ⟨rfl, rfl⟩ := hok
        obtain ⟨hwk1, hget, hneo, hnts, hblk, hext, hnn⟩ := gasMint_ok_spec hwk hm
        refine ⟨hwk1, rfl, rfl, rfl, hget, hneo, hnts, hblk.trans hblock, ?_, hnn⟩
        obtain ⟨extra, hx, hall⟩ := hext
        exact ⟨extra, hx, fun e he => (hall e he).1⟩
      · simp only [hcc, hm] at hok
        exact absurd hok (by simp)

theorem incBalance_zero (cc : CalcClaimable) (k : TokenKind) (ic : InteropContext)
    (acc : Account) : incBalance cc k ic acc 0 = .ok ic acc := by
  cases k <;>
    simp [incBalance, neoNative.increaseBalance, gasNative.increaseBalance]

theorem incBalance_err_eq {cc : CalcClaimable} {k : TokenKind} {ic : InteropContext}
    {acc : Account} {amount : Int} {ic' : InteropContext} {m : String}
    (herr : incBalance cc k ic acc amount = .err ic' m) : ic' = ic := by
  cases k
  · unfold incBalance neoNative.increaseBalance at herr
    by_cases h2 : amount = 0
    · simp [h2] at herr
    by_cases h1 : amount < 0 ∧ acc.neo.balance < -amount
    · simp only [if_neg h2, if_pos h1, IncRes.err.injEq] at herr
      exact herr.1.symm
    · simp only [if_neg h2, if_neg h1] at herr
      rcases hd : neoNative.distributeGas cc ic acc with ⟨ic1, acc1⟩ | ⟨ic1, m1⟩ | _
      · rw [hd] at herr
        exact IncRes.noConfusion herr
      · rw [hd] at herr
        simp only [IncRes.err.injEq] at herr
        have : ic1 = ic := by
          unfold neoNative.distributeGas at hd
          rcases hblock : ic.blockIndex with _ | idx
          · rw [hblock] at hd
            exact IncRes.noConfusion hd
          · rw [hblock] at hd
            rcases hcc : cc acc.neo.balance acc.neo.balanceHeight idx with e | q
            · simp only [hcc, IncRes.err.injEq] at hd
              exact hd.1.symm
            · obtain ⟨sys, net⟩ := q
              rcases hm : gasNative.mint ic acc.scriptHash (sys + net) with ic2 | _
              · simp only [hcc, hm] at hd
                exact IncRes.noConfusion hd
              · simp only [hcc, hm] at hd
                exact IncRes.noConfusion hd
        rw [← herr.1]
        exact this
      · rw [hd] at herr
        exact IncRes.noConfusion herr
  · unfold incBalance gasNative.increaseBalance at herr
    by_cases h2 : amount = 0
    · simp [h2] at herr
    by_cases h1 : amount < 0 ∧ acc.gas.balance < -amount
    · simp only [if_neg h2, if_pos h1, IncRes.err.injEq] at herr
      exact herr.1.symm
    · simp only [if_neg h2, if_neg h1] at herr
      exact IncRes.noConfusion herr

theorem incBalance_ok_spec {cc : CalcClaimable} {k : TokenKind} {ic : InteropContext}
    {acc : Account} {amount : Int} {ic' : InteropContext} {acc' : Account}
    (hwk : WellKeyed ic) (hok : incBalance cc k ic acc amount = .ok ic' acc') :
    WellKeyed ic'
  ∧ acc'.scriptHash = acc.scriptHash
  ∧ tokenBalance k acc' = tokenBalance k acc + amount
  ∧ (∀ key, key ≠ acc.scriptHash → storeGet ic'.accounts key = storeGet ic.accounts key)
  ∧ tokenTotalSupply k ic' = tokenTotalSupply k ic
  ∧ ic'.blockIndex = ic.blockIndex
  ∧ (∃ extra, ic'.notifications = ic.notifications ++ extra ∧ ∀ e ∈ extra, e.fromAddr = none)
  ∧ (NonNeg ic → 0 ≤ acc.neo.balance → 0 ≤ acc.gas.balance →
      NonNeg ic' ∧ 0 ≤ acc'.neo.balance ∧ 0 ≤ acc'.gas.balance) := by
  cases k
  · unfold incBalance neoNative.increaseBalance at hok
    by_cases h2 : amount = 0
    · simp only [if_pos h2, IncRes.ok.injEq] at hok
      obtain ⟨rfl, rfl⟩ := hok
      exact ⟨hwk, rfl, by simp [h2], fun _ _ => rfl, rfl, rfl, ⟨[], by simp, by simp⟩,
        fun hnn ha hb => ⟨hnn, ha, hb⟩⟩
    by_cases h1 : amount < 0 ∧ acc.neo.balance < -amount
    · simp only [if_neg h2, if_pos h1] at hok
      exact IncRes.noConfusion hok
    · simp only [if_neg h2, if_neg h1] at hok
      rcases hd : neoNative.distributeGas cc ic acc with ⟨ic1, acc1⟩ | ⟨ic1, m1⟩ | _
      · rw [hd] at hok
        simp only [IncRes.ok.injEq] at hok
        obtain ⟨rfl, rfl⟩ := hok
        obtain ⟨hwk1, hsh1, hbal1, hgas1, hget1, hneo1, hnts1, hblk1, hext1, hnn1⟩ :=
          distributeGas_ok_spec hwk hd
        refine ⟨hwk1, hsh1, ?_, hget1, hnts1, hblk1, hext1, ?_⟩
        · show acc1.neo.balance + amount = acc.neo.balance + amount
          rw [hbal1]
        · intro hnn ha hb
          refine ⟨hnn1 hnn, ?_, ?_⟩
          · show (0 : Int) ≤ acc1.neo.balance + amount
            rw [hbal1]
            rcases not_and_or.mp h1 with hge | hlt
            · exact add_nonneg ha (not_lt.mp hge)
            · have hle : -amount ≤ acc.neo.balance := not_lt.mp hlt
              linarith
          · show (0 : Int) ≤ acc1.gas.balance
            rw [hgas1]
            exact hb
      · rw [hd] at hok
        exact IncRes.noConfusion hok
      · rw [hd] at hok
        exact IncRes.noConfusion hok
  · unfold incBalance gasNative.increaseBalance at hok
    by_cases h2 : amount = 0
    · simp only [if_pos h2, IncRes.ok.injEq] at hok
      obtain ⟨rfl, rfl⟩ := hok
      exact ⟨hwk, rfl, by simp [h2], fun _ _ => rfl, rfl, rfl, ⟨[], by simp, by simp⟩,
        fun hnn ha hb => ⟨hnn, ha, hb⟩⟩
    by_cases h1 : amount < 0 ∧ acc.gas.balance < -amount
    · simp only [if_neg h2, if_pos h1] at hok
      exact IncRes.noConfusion hok
    · simp only [if_neg h2, if_neg h1, IncRes.ok.injEq] at hok
      obtain ⟨rfl, rfl⟩ := hok
      refine ⟨hwk, rfl, by simp [tokenBalance], fun _ _ => rfl, rfl, rfl,
        ⟨[], by simp, by simp⟩, ?_⟩
      intro hnn ha hb
      refine ⟨hnn, by simpa using ha, ?_⟩
      show (0 : Int) ≤ acc.gas.balance + amount
      rcases not_and_or.mp h1 with hge | hlt
      · exact add_nonneg hb (not_lt.mp hge)
      · have hle : -amount ≤ acc.gas.balance := not_lt.mp hlt
        linarith

theorem count_eq_zero_of_fromAddr_none {l : List NotificationEvent} {th : Uint160}
    {fa ta : Option Uint160} {am : Int} (hall : ∀ e ∈ l, e.fromAddr = none)
    (hfa : fa ≠ none) : l.count (transferEvent th fa ta am) = 0 := by
  rw [List.count_eq_zero]
  intro hmem
  have := hall _ hmem
  simp only [transferEvent] at this
  exact hfa this

theorem transfer_ok_spec {cc : CalcClaimable} {k : TokenKind} {ic : InteropContext}
    {fromA toA : Uint160} {amount : Int} {ic' : InteropContext}
    (hwk : WellKeyed ic)
    (hok : nep5TokenNative.transfer cc k ic fromA toA amount = .ok ic') :
    WellKeyed ic'
  ∧ 0 ≤ amount
  ∧ (∃ extra, ic'.notifications = ic.notifications ++ extra ∧
      extra.count (transferEvent (tokenHash k) (some fromA) (some toA) amount) = 1)
  ∧ (¬(fromA = toA ∨ amount = 0) →
      tokenBalance k (getAccountStateOrNew ic' fromA)
        = tokenBalance k (getAccountStateOrNew ic fromA) + amount
    ∧ tokenBalance k (getAccountStateOrNew ic' toA)
        = tokenBalance k (getAccountStateOrNew ic toA) + amount)
  ∧ (NonNeg ic → NonNeg ic') := by
  by_cases hneg : amount < 0
  · simp [nep5TokenNative.transfer, if_pos hneg] at hok
  have h0 : 0 ≤ amount := not_lt.mp hneg
  unfold nep5TokenNative.transfer at hok
  by_cases hie : fromA = toA ∨ amount = 0
  · simp only [if_neg hneg, if_pos hie, incBalance_zero, TransferRes.ok.injEq] at hok
    subst hok
    refine ⟨?_, h0, ?_, ?_, ?_⟩
    · exact wellKeyed_putAccountState hwk _
    · refine ⟨[transferEvent (tokenHash k) (some fromA) (some toA) amount], ?_, ?_⟩
      · simp [transferEvent]
      · simp
    · intro hnie
      exact absurd hie hnie
    · intro hnn
      exact nonNeg_putAccountState hnn (nonNeg_getAccountStateOrNew hnn fromA)
  · simp only [if_neg hneg, if_neg hie] at hok
    rcases h1 : incBalance cc k ic (getAccountStateOrNew ic fromA) amount with
      ⟨ic1, accFrom1⟩ | ⟨ic1, m1⟩ | _
    · simp only [h1] at hok
      rcases h2 : incBalance cc k (putAccountState ic1 accFrom1)
          (getAccountStateOrNew (putAccountState ic1 accFrom1) toA) amount with
        ⟨ic3, accTo1⟩ | ⟨ic3, m3⟩ | _
      · simp only [h2, TransferRes.ok.injEq] at hok
        subst hok
        obtain ⟨hwk1, hshF1, hbalF1, hgetF1, _, _, hextF1, hnnF1⟩ := incBalance_ok_spec hwk h1
        have hwk2 : WellKeyed (putAccountState ic1 accFrom1) :=
          wellKeyed_putAccountState hwk1 _
        obtain ⟨hwk3, hshT1, hbalT1, hgetT1, _, _, hextT1, hnnT1⟩ := incBalance_ok_spec hwk2 h2
        have hshF : (getAccountStateOrNew ic fromA).scriptHash = fromA :=
          scriptHash_getAccountStateOrNew hwk fromA
        have hshT : (getAccountStateOrNew (putAccountState ic1 accFrom1) toA).scriptHash = toA :=
          scriptHash_getAccountStateOrNew hwk2 toA
        have haccF1 : accFrom1.scriptHash = fromA := hshF1.trans hshF
        have haccT1 : accTo1.scriptHash = toA := hshT1.trans hshT
        have hfromto : fromA ≠ toA := fun h => hie (Or.inl h)
        have hsgF : storeGet (emitTransfer (putAccountState ic3 accTo1) (tokenHash k)
            (some fromA) (some toA) amount).accounts fromA = some accFrom1 := by
          rw [emitTransfer_accounts,
            storeGet_putAccountState_ne _ _ _ (by rw [haccT1]; exact hfromto),
            hgetT1 fromA (by rw [hshT]; exact hfromto)]
          have hself := storeGet_putAccountState_self ic1 accFrom1
          rw [haccF1] at hself
          exact hself
        have hsgT : storeGet (emitTransfer (putAccountState ic3 accTo1) (tokenHash k)
            (some fromA) (some toA) amount).accounts toA = some accTo1 := by
          rw [emitTransfer_accounts]
          have hself := storeGet_putAccountState_self ic3 accTo1
          rw [haccT1] at hself
          exact hself
        have hTsame : getAccountStateOrNew (putAccountState ic1 accFrom1) toA =
            getAccountStateOrNew ic toA := by
          apply getAccountStateOrNew_congr
          rw [storeGet_putAccountState_ne _ _ _ (by rw [haccF1]; exact Ne.symm hfromto)]
          exact hgetF1 toA (by rw [hshF]; exact Ne.symm hfromto)
        refine ⟨?_, h0, ?_, ?_, ?_⟩
        · exact wellKeyed_putAccountState hwk3 _
        · obtain ⟨extra1, hx1, hall1⟩ := hextF1
          obtain ⟨extra2, hx2, hall2⟩ := hextT1
          refine ⟨extra1 ++ (extra2 ++
              [transferEvent (tokenHash k) (some fromA) (some toA) amount]), ?_, ?_⟩
          · rw [putAccountState_notifications] at hx2
            simp only [emitTransfer_notifications, putAccountState_notifications, hx2, hx1,
              transferEvent]
            simp [List.append_assoc]
          · rw [List.count_append, List.count_append]
            rw [count_eq_zero_of_fromAddr_none hall1 (by simp),
              count_eq_zero_of_fromAddr_none hall2 (by simp)]
            simp
        · intro _
          constructor
          · rw [getAccountStateOrNew_eq_of_storeGet hsgF]
            exact hbalF1
          · rw [getAccountStateOrNew_eq_of_storeGet hsgT, hbalT1, hTsame]
        · intro hnn
          have haccF := nonNeg_getAccountStateOrNew hnn fromA
          obtain ⟨hnn1, hf1, hf2⟩ := hnnF1 hnn haccF.1 haccF.2
          have hnn2 : NonNeg (putAccountState ic1 accFrom1) :=
            nonNeg_putAccountState hnn1 ⟨hf1, hf2⟩
          have haccT := nonNeg_getAccountStateOrNew hnn2 toA
          obtain ⟨hnn3, ht1, ht2⟩ := hnnT1 hnn2 haccT.1 haccT.2
          exact nonNeg_putAccountState hnn3 ⟨ht1, ht2⟩
      · simp only [h2] at hok
        exact TransferRes.noConfusion hok
      · simp only [h2] at hok
        exact TransferRes.noConfusion hok
    · simp only [h1] at hok
      exact TransferRes.noConfusion hok
    · simp only [h1] at hok
      exact TransferRes.noConfusion hok

theorem transfer_err_spec {cc : CalcClaimable} {k : TokenKind} {ic : InteropContext}
    {fromA toA : Uint160} {amount : Int} {ic' : InteropContext} {m : String}
    (hwk : WellKeyed ic) (hnn : NonNeg ic)
    (herr : nep5TokenNative.transfer cc k ic fromA toA amount = .err ic' m) :
    WellKeyed ic' ∧ NonNeg ic' := by
  by_cases hneg : amount < 0
  · simp only [nep5TokenNative.transfer, if_pos hneg, TransferRes.err.injEq] at herr
    rw [← herr.1]
    exact ⟨hwk, hnn⟩
  unfold nep5TokenNative.transfer at herr
  by_cases hie : fromA = toA ∨ amount = 0
  · simp only [if_neg hneg, if_pos hie, incBalance_zero] at herr
    exact TransferRes.noConfusion herr
  · simp only [if_neg hneg, if_neg hie] at herr
    rcases h1 : incBalance cc k ic (getAccountStateOrNew ic fromA) amount with
      ⟨ic1, accFrom1⟩ | ⟨ic1, m1⟩ | _
    · simp only [h1] at herr
      rcases h2 : incBalance cc k (putAccountState ic1 accFrom1)
          (getAccountStateOrNew (putAccountState ic1 accFrom1) toA) amount with
        ⟨ic3, accTo1⟩ | ⟨ic3, m3⟩ | _
      · simp only [h2] at herr
        exact TransferRes.noConfusion herr
      · simp only [h2, TransferRes.err.injEq] at herr
        obtain ⟨hwk1, _, _, _, _, _, _, hnnF1⟩ := incBalance_ok_spec hwk h1
        have hacc := nonNeg_getAccountStateOrNew hnn fromA
        obtain ⟨hnn1, hf1, hf2⟩ := hnnF1 hnn hacc.1 hacc.2
        have h23 : ic3 = putAccountState ic1 accFrom1 := incBalance_err_eq h2
        rw [← herr.1, h23]
        exact ⟨wellKeyed_putAccountState hwk1 _, nonNeg_putAccountState hnn1 ⟨hf1, hf2⟩⟩
      · simp only [h2] at herr
        exact TransferRes.noConfusion herr
    · simp only [h1] at herr
      rw [TransferRes.err.injEq] at herr
      have h1i : ic1 = ic := incBalance_err_eq h1
      rw [← herr.1, h1i]
      exact ⟨hwk, hnn⟩
    · simp only [h1] at herr
      exact TransferRes.noConfusion herr

theorem mint_ok_spec {cc : CalcClaimable} {k : TokenKind} {ic : InteropContext}
    {h : Uint160} {amount : Int} {ic' : InteropContext}
    (hwk : WellKeyed ic) (hpos : 0 < amount)
    (hok : nep5TokenNative.mint cc k ic h amount = .ok ic') :
    WellKeyed ic'
  ∧ (∀ key, key ≠ h → storeGet ic'.accounts key = storeGet ic.accounts key)
  ∧ tokenTotalSupply k ic' = tokenTotalSupply k ic + amount
  ∧ (∃ extra, ic'.notifications = ic.notifications ++ extra ∧
      transferEvent (tokenHash k) none (some h) amount ∈ extra ∧
      ∀ e ∈ extra, e.fromAddr = none)
  ∧ (NonNeg ic → NonNeg ic') := by
  have hneg : ¬amount < 0 := not_lt.mpr (le_of_lt hpos)
  have hz : ¬amount = 0 := Ne.symm (ne_of_lt hpos)
  unfold nep5TokenNative.mint at hok
  simp only [if_neg hneg, if_neg hz] at hok
  rcases h1 : incBalance cc k ic (getAccountStateOrNew ic h) amount with
    ⟨ic1, acc1⟩ | ⟨ic1, m1⟩ | _
  · simp only [h1, MintRes.ok.injEq] at hok
    subst hok
    obtain ⟨hwk1, hsh1, _, hget1, hts1, _, hext1, hnn1⟩ := incBalance_ok_spec hwk h1
    have hsh : (getAccountStateOrNew ic h).scriptHash = h :=
      scriptHash_getAccountStateOrNew hwk h
    have hacc1 : acc1.scriptHash = h := hsh1.trans hsh
    obtain ⟨extra1, hx1, hall1⟩ := hext1
    refine ⟨?_, ?_, ?_, ?_, ?_⟩
    · cases k <;>
        exact wellKeyed_putAccountState hwk1 _
    · intro key hkey
      have hacc : (addTokenTotalSupply k (putAccountState ic1 acc1) amount).accounts =
          (putAccountState ic1 acc1).accounts := by
        cases k <;> rfl
      rw [emitTransfer_accounts, hacc,
        storeGet_putAccountState_ne _ _ _ (by rw [hacc1]; exact hkey)]
      exact hget1 key (by rw [hsh]; exact hkey)
    · have hts : tokenTotalSupply k (addTokenTotalSupply k (putAccountState ic1 acc1) amount) =
          tokenTotalSupply k (putAccountState ic1 acc1) + amount := by
        cases k <;> rfl
      have hemit : tokenTotalSupply k (emitTransfer
          (addTokenTotalSupply k (putAccountState ic1 acc1) amount)
          (tokenHash k) none (some h) amount) =
          tokenTotalSupply k (addTokenTotalSupply k (putAccountState ic1 acc1) amount) := by
        cases k <;> rfl
      have hput : tokenTotalSupply k (putAccountState ic1 acc1) = tokenTotalSupply k ic1 := by
        cases k <;> rfl
      rw [hemit, hts, hput, hts1]
    · refine ⟨extra1 ++ [transferEvent (tokenHash k) none (some h) amount], ?_, ?_, ?_⟩
      · have hne : (addTokenTotalSupply k (putAccountState ic1 acc1) amount).notifications =
            ic1.notifications := by
          cases k <;> rfl
        simp only [emitTransfer_notifications, hne, hx1, transferEvent]
        simp [List.append_assoc]
      · simp
      · intro e he
        rcases List.mem_append.mp he with hmem | hmem
        · exact hall1 e hmem
        · rw [List.mem_singleton] at hmem
          subst hmem
          rfl
    · intro hnn
      have hacc := nonNeg_getAccountStateOrNew hnn h
      obtain ⟨hnn1, ha1, ha2⟩ := hnn1 hnn hacc.1 hacc.2
      have : NonNeg (putAccountState ic1 acc1) := nonNeg_putAccountState hnn1 ⟨ha1, ha2⟩
      cases k <;> exact this
  · simp only [h1] at hok
    exact MintRes.noConfusion hok
  · simp only [h1] at hok
    exact MintRes.noConfusion hok

theorem burn_ok_spec {cc : CalcClaimable} {k : TokenKind} {ic : InteropContext}
    {h : Uint160} {amount : Int} {ic' : InteropContext}
    (hwk : WellKeyed ic) (hpos : 0 < amount)
    (hok : nep5TokenNative.burn cc k ic h amount = .ok ic') :
    WellKeyed ic'
  ∧ (∀ key, key ≠ h → storeGet ic'.accounts key = storeGet ic.accounts key)
  ∧ tokenTotalSupply k ic' = tokenTotalSupply k ic - amount
  ∧ (∃ extra, ic'.notifications = ic.notifications ++ extra ∧
      transferEvent (tokenHash k) (some h) none amount ∈ extra)
  ∧ (NonNeg ic → NonNeg ic') := by
  have hneg : ¬amount < 0 := not_lt.mpr (le_of_lt hpos)
  have hz : ¬amount = 0 := Ne.symm (ne_of_lt hpos)
  unfold nep5TokenNative.burn at hok
  simp only [if_neg hneg, if_neg hz] at hok
  rcases h1 : incBalance cc k ic (getAccountStateOrNew ic h) (-amount) with
    ⟨ic1, acc1⟩ | ⟨ic1, m1⟩ | _
  · simp only [h1, MintRes.ok.injEq] at hok
    subst hok
    obtain ⟨hwk1, hsh1, _, hget1, hts1, _, hext1, hnn1⟩ := incBalance_ok_spec hwk h1
    have hsh : (getAccountStateOrNew ic h).scriptHash = h :=
      scriptHash_getAccountStateOrNew hwk h
    have hacc1 : acc1.scriptHash = h := hsh1.trans hsh
    obtain ⟨extra1, hx1, hall1⟩ := hext1
    refine ⟨?_, ?_, ?_, ?_, ?_⟩
    · cases k <;>
        exact wellKeyed_putAccountState hwk1 _
    · intro key hkey
      have hacc : (addTokenTotalSupply k (putAccountState ic1 acc1) (-amount)).accounts =
          (putAccountState ic1 acc1).accounts := by
        cases k <;> rfl
      rw [emitTransfer_accounts, hacc,
        storeGet_putAccountState_ne _ _ _ (by rw [hacc1]; exact hkey)]
      exact hget1 key (by rw [hsh]; exact hkey)
    · have hts : tokenTotalSupply k
          (addTokenTotalSupply k (putAccountState ic1 acc1) (-amount)) =
          tokenTotalSupply k (putAccountState ic1 acc1) + (-amount) := by
        cases k <;> rfl
      have hemit : tokenTotalSupply k (emitTransfer
          (addTokenTotalSupply k (putAccountState ic1 acc1) (-amount))
          (tokenHash k) (some h) none amount) =
          tokenTotalSupply k (addTokenTotalSupply k (putAccountState ic1 acc1) (-amount)) := by
        cases k <;> rfl
      have hput : tokenTotalSupply k (putAccountState ic1 acc1) = tokenTotalSupply k ic1 := by
        cases k <;> rfl
      rw [hemit, hts, hput, hts1]
      ring
    · refine ⟨extra1 ++ [transferEvent (tokenHash k) (some h) none amount], ?_, ?_⟩
      · have hne : (addTokenTotalSupply k (putAccountState ic1 acc1) (-amount)).notifications =
            ic1.notifications := by
          cases k <;> rfl
        simp only [emitTransfer_notifications, hne, hx1, transferEvent]
        simp [List.append_assoc]
      · simp
    · intro hnn
      have hacc := nonNeg_getAccountStateOrNew hnn h
      obtain ⟨hnn1, ha1, ha2⟩ := hnn1 hnn hacc.1 hacc.2
      have : NonNeg (putAccountState ic1 acc1) := nonNeg_putAccountState hnn1 ⟨ha1, ha2⟩
      cases k <;> exact this
  · simp only [h1] at hok
    exact MintRes.noConfusion hok
  · simp only [h1] at hok
    exact MintRes.noConfusion hok

theorem mint_neg (cc : CalcClaimable) (k : TokenKind) (ic : InteropContext) (h : Uint160)
    {amount : Int} (hneg : amount < 0) :
    nep5TokenNative.mint cc k ic h amount = .fault ∧
    nep5TokenNative.burn cc k ic h amount = .fault := by
  constructor <;> simp [nep5TokenNative.mint, nep5TokenNative.burn, if_pos hneg]

theorem mint_zero (cc : CalcClaimable) (k : TokenKind) (ic : InteropContext) (h : Uint160) :
    nep5TokenNative.mint cc k ic h 0 = .ok ic ∧
    nep5TokenNative.burn cc k ic h 0 = .ok ic := by
  constructor <;> simp [nep5TokenNative.mint, nep5TokenNative.burn]

theorem applyOp_inv (cc : CalcClaimable) {ic : InteropContext} (op : Op)
    (hwk : WellKeyed ic) (hnn : NonNeg ic) :
    WellKeyed (applyOp cc ic op) ∧ NonNeg (applyOp cc ic op) := by
  cases op with
  | mint k h amount =>
    unfold applyOp
    rcases hm : nep5TokenNative.mint cc k ic h amount with ic1 | _
    · simp only [hm]
      rcases lt_trichotomy amount 0 with hlt | heq | hgt
      · rw [(mint_neg cc k ic h hlt).1] at hm
        exact MintRes.noConfusion hm
      · subst heq
        rw [(mint_zero cc k ic h).1, MintRes.ok.injEq] at hm
        rw [← hm]
        exact ⟨hwk, hnn⟩
      · obtain ⟨hwk1, _, _, _, hnn1⟩ := mint_ok_spec hwk hgt hm
        exact ⟨hwk1, hnn1 hnn⟩
    · simp only [hm]
      exact ⟨hwk, hnn⟩
  | burn k h amount =>
    unfold applyOp
    rcases hm : nep5TokenNative.burn cc k ic h amount with ic1 | _
    · simp only [hm]
      rcases lt_trichotomy amount 0 with hlt | heq | hgt
      · rw [(mint_neg cc k ic h hlt).2] at hm
        exact MintRes.noConfusion hm
      · subst heq
        rw [(mint_zero cc k ic h).2, MintRes.ok.injEq] at hm
        rw [← hm]
        exact ⟨hwk, hnn⟩
      · obtain ⟨hwk1, _, _, _, hnn1⟩ := burn_ok_spec hwk hgt hm
        exact ⟨hwk1, hnn1 hnn⟩
    · simp only [hm]
      exact ⟨hwk, hnn⟩
  | transfer k fromA toA amount =>
    unfold applyOp
    rcases ht : nep5TokenNative.transfer cc k ic fromA toA amount with ic1 | ⟨ic1, m⟩ | _
    · simp only [ht]
      obtain ⟨hwk1, _, _, _, hnn1⟩ := transfer_ok_spec hwk ht
      exact ⟨hwk1, hnn1 hnn⟩
    · simp only [ht]
      exact transfer_err_spec hwk hnn ht
    · simp only [ht]
      exact ⟨hwk, hnn⟩

theorem applySeq_inv (cc : CalcClaimable) (ops : List Op) :
    ∀ ic : InteropContext, WellKeyed ic → NonNeg ic →
      WellKeyed (applySeq cc ic ops) ∧ NonNeg (applySeq cc ic ops) := by
  induction ops with
  | nil =>
    intro ic hwk hnn
    exact ⟨hwk, hnn⟩
  | cons op ops ih =>
    intro ic hwk hnn
    obtain ⟨hwk1, hnn1⟩ := applyOp_inv cc op hwk hnn
    exact ih (applyOp cc ic op) hwk1 hnn1

/-- Claim C3 (counterexample): under Go's wrapping int64 semantics the
claimed non-negativity fails.  Transfer amounts come from the script with
no funds check (the code credits the sender), so two GAS transfers of
2^62 from the empty ledger drive `acc.GAS.Balance += amount` to 2^63,
which wraps to -2^63: the stored balance of hashB ends negative. -/
theorem C3_int64_overflow_cex :
    tokenBalance .gas (getAccountStateOrNew (applySeqI64 ccZero (initialContext none)
        [Op.transfer .gas hashA hashB 4611686018427387904,
         Op.transfer .gas hashA hashB 4611686018427387904]) hashB) = -(2 ^ 63)
  ∧ tokenBalance .gas (getAccountStateOrNew (applySeqI64 ccZero (initialContext none)
        [Op.transfer .gas hashA hashB 4611686018427387904,
         Op.transfer .gas hashA hashB 4611686018427387904]) hashB) < 0
  ∧ ¬ NonNeg (applySeqI64 ccZero (initialContext none)
        [Op.transfer .gas hashA hashB 4611686018427387904,
         Op.transfer .gas hashA hashB 4611686018427387904]) := by
  refine ⟨by decide, by decide, by decide⟩

/-- Claim C3 (amended): both incBalance hooks refuse a negative amount
whose magnitude exceeds the current balance with an "insufficient funds"
error that leaves the state untouched; and in overflow-free semantics
(balances as unbounded integers, the arithmetic the guards were written
for) every stored NEO and GAS balance stays non-negative after any
sequence of native-token operations from the empty ledger.  Under the
program's actual wrapping int64 arithmetic the invariant is refuted by
the overflow counterexample. -/
theorem C3_balance_nonneg :
    (∀ (ic : InteropContext) (acc : Account) (amount : Int), amount < 0 →
      acc.gas.balance < -amount →
      gasNative.increaseBalance ic acc amount = .err ic "insufficient funds")
  ∧ (∀ (cc : CalcClaimable) (ic : InteropContext) (acc : Account) (amount : Int), amount < 0 →
      acc.neo.balance < -amount →
      neoNative.increaseBalance cc ic acc amount = .err ic "insufficient funds")
  ∧ (∀ (cc : CalcClaimable) (blk : Option Nat) (ops : List Op),
      NonNeg (applySeq cc (initialContext blk) ops)) := by
  refine ⟨?_, ?_, ?_⟩
  · intro ic acc amount hneg hlt
    unfold gasNative.increaseBalance
    rw [if_neg (by exact fun h => absurd h (ne_of_lt hneg)), if_pos ⟨hneg, hlt⟩]
  · intro cc ic acc amount hneg hlt
    unfold neoNative.increaseBalance
    rw [if_neg (by exact fun h => absurd h (ne_of_lt hneg)), if_pos ⟨hneg, hlt⟩]
  · intro cc blk ops
    have hwk : WellKeyed (initialContext blk) := by
      intro p hp
      simp [initialContext] at hp
    have hnn : NonNeg (initialContext blk) := by
      intro p hp
      simp [initialContext] at hp
    exact (applySeq_inv cc ops (initialContext blk) hwk hnn).2

/-- Witness for C3: a GAS balance of 3 refuses a withdrawal of 5, and a
concrete mint-then-transfer run from the empty ledger keeps balances
non-negative. -/
theorem C3_balance_nonneg_witness :
    gasNative.increaseBalance (initialContext none)
        (Account.mk hashA (NEOBalanceState.mk 0 0) (NEP5BalanceState.mk 3)) (-5) =
      .err (initialContext none) "insufficient funds"
  ∧ NonNeg (applySeq ccZero (initialContext none)
      [Op.mint .gas hashA 5, Op.transfer .gas hashA hashB 3]) :=
  ⟨C3_balance_nonneg.1 (initialContext none)
      (Account.mk hashA (NEOBalanceState.mk 0 0) (NEP5BalanceState.mk 3)) (-5)
      (by decide) (by decide),
   C3_balance_nonneg.2.2 ccZero none [Op.mint .gas hashA 5, Op.transfer .gas hashA hashB 3]⟩

/-- Claim C4: mint and burn reject a negative amount by faulting the VM
invocation (the applier discards the write set, leaving the state
unchanged); a zero amount is ignored with no state change and no
notification; a positive mint updates no stored account other than h,
raises the token's totalSupply by the amount and emits a Transfer
notification with null origin (every notification it appends has null
origin); a positive burn likewise touches only h, lowers totalSupply by
the amount and emits a Transfer notification with null destination. -/
theorem C4_mint_burn (cc : CalcClaimable) (k : TokenKind) (ic : InteropContext)
    (h : Uint160) (a : Int) :
    (a < 0 → nep5TokenNative.mint cc k ic h a = .fault
      ∧ nep5TokenNative.burn cc k ic h a = .fault
      ∧ applyOp cc ic (Op.mint k h a) = ic
      ∧ applyOp cc ic (Op.burn k h a) = ic)
  ∧ (a = 0 → nep5TokenNative.mint cc k ic h a = .ok ic
      ∧ nep5TokenNative.burn cc k ic h a = .ok ic)
  ∧ (WellKeyed ic → 0 < a → ∀ ic', nep5TokenNative.mint cc k ic h a = .ok ic' →
      (∀ key, key ≠ h → storeGet ic'.accounts key = storeGet ic.accounts key)
    ∧ tokenTotalSupply k ic' = tokenTotalSupply k ic + a
    ∧ (∃ extra, ic'.notifications = ic.notifications ++ extra ∧
        transferEvent (tokenHash k) none (some h) a ∈ extra ∧
        ∀ e ∈ extra, e.fromAddr = none))
  ∧ (WellKeyed ic → 0 < a → ∀ ic', nep5TokenNative.burn cc k ic h a = .ok ic' →
      (∀ key, key ≠ h → storeGet ic'.accounts key = storeGet ic.accounts key)
    ∧ tokenTotalSupply k ic' = tokenTotalSupply k ic - a
    ∧ (∃ extra, ic'.notifications = ic.notifications ++ extra ∧
        transferEvent (tokenHash k) (some h) none a ∈ extra)) := by
  refine ⟨?_, ?_, ?_, ?_⟩
  · intro hneg
    obtain ⟨hm, hb⟩ := mint_neg cc k ic h hneg
    refine ⟨hm, hb, ?_, ?_⟩
    · simp [applyOp, hm]
    · simp [applyOp, hb]
  · intro hz
    subst hz
    exact mint_zero cc k ic h
  · intro hwk hpos ic' hok
    obtain ⟨_, hget, hts, hext, _⟩ := mint_ok_spec hwk hpos hok
    exact ⟨hget, hts, hext⟩
  · intro hwk hpos ic' hok
    obtain ⟨_, hget, hts, hext, _⟩ := burn_ok_spec hwk hpos hok
    exact ⟨hget, hts, hext⟩

/-- Witness for C4 at concrete inputs: a mint/burn of -1 on the empty
ledger faults and the applier keeps the state; a zero mint/burn is the
identity on the state. -/
theorem C4_mint_burn_witness :
    (nep5TokenNative.mint ccZero .gas (initialContext none) hashA (-1) = .fault
      ∧ nep5TokenNative.burn ccZero .gas (initialContext none) hashA (-1) = .fault
      ∧ applyOp ccZero (initialContext none) (Op.mint .gas hashA (-1)) = initialContext none
      ∧ applyOp ccZero (initialContext none) (Op.burn .gas hashA (-1)) = initialContext none)
  ∧ (nep5TokenNative.mint ccZero .gas (initialContext none) hashA 0 = .ok (initialContext none)
      ∧ nep5TokenNative.burn ccZero .gas (initialContext none) hashA 0 =
          .ok (initialContext none)) :=
  ⟨(C4_mint_burn ccZero .gas (initialContext none) hashA (-1)).1 (by decide),
   (C4_mint_burn ccZero .gas (initialContext none) hashA 0).2.1 rfl⟩

/-- Claim C1: the NEP-5 native transfer rejects a negative amount (error
return, state untouched, the Transfer method pushes false); when
`from = to` or the amount is zero the call collapses to a zero-delta
update of the from account only (the state is exactly the re-stored from
account plus the notification); otherwise both the from and the to
balance of the token are updated by the amount; and every successful call
appends exactly one Transfer notification carrying from, to and the
amount. -/
theorem C1_transfer (cc : CalcClaimable) (k : TokenKind) (ic : InteropContext)
    (fromA toA : Uint160) (amount : Int) :
    (amount < 0 →
      nep5TokenNative.transfer cc k ic fromA toA amount = .err ic "negative amount"
    ∧ nep5TokenNative.Transfer cc k ic fromA toA amount = some (ic, false))
  ∧ (0 ≤ amount → (fromA = toA ∨ amount = 0) →
      nep5TokenNative.transfer cc k ic fromA toA amount =
        .ok (emitTransfer (putAccountState ic (getAccountStateOrNew ic fromA))
          (tokenHash k) (some fromA) (some toA) amount))
  ∧ (WellKeyed ic → ¬(fromA = toA ∨ amount = 0) → ∀ ic',
      nep5TokenNative.transfer cc k ic fromA toA amount = .ok ic' →
        tokenBalance k (getAccountStateOrNew ic' fromA)
          = tokenBalance k (getAccountStateOrNew ic fromA) + amount
      ∧ tokenBalance k (getAccountStateOrNew ic' toA)
          = tokenBalance k (getAccountStateOrNew ic toA) + amount)
  ∧ (WellKeyed ic → ∀ ic',
      nep5TokenNative.transfer cc k ic fromA toA amount = .ok ic' →
        ∃ extra, ic'.notifications = ic.notifications ++ extra ∧
          extra.count (transferEvent (tokenHash k) (some fromA) (some toA) amount) = 1) := by
  refine ⟨?_, ?_, ?_, ?_⟩
  · intro hneg
    constructor
    · simp [nep5TokenNative.transfer, if_pos hneg]
    · unfold nep5TokenNative.Transfer
      simp [nep5TokenNative.transfer, if_pos hneg]
  · intro h0 hie
    simp only [nep5TokenNative.transfer, if_neg (not_lt.mpr h0), if_pos hie, incBalance_zero]
  · intro hwk hnie ic' hok
    exact (transfer_ok_spec hwk hok).2.2.2.1 hnie
  · intro hwk ic' hok
    exact (transfer_ok_spec hwk hok).2.2.1

/-- Witness for C1 at concrete inputs: a transfer of -1 is refused with
false pushed; a zero-amount transfer from hashA to hashB collapses to the
zero-delta re-store of hashA's account plus the single notification. -/
theorem C1_transfer_witness :
    (nep5TokenNative.transfer ccZero .gas (initialContext none) hashA hashB (-1) =
        .err (initialContext none) "negative amount"
    ∧ nep5TokenNative.Transfer ccZero .gas (initialContext none) hashA hashB (-1) =
        some (initialContext none, false))
  ∧ nep5TokenNative.transfer ccZero .gas (initialContext none) hashA hashB 0 =
      .ok (emitTransfer (putAccountState (initialContext none)
            (getAccountStateOrNew (initialContext none) hashA))
          (tokenHash .gas) (some hashA) (some hashB) 0)
  ∧ (∃ extra,
      (emitTransfer (putAccountState (initialContext none)
            (getAccountStateOrNew (initialContext none) hashA))
          (tokenHash .gas) (some hashA) (some hashB) 0).notifications =
        (initialContext none).notifications ++ extra ∧
      extra.count (transferEvent (tokenHash .gas) (some hashA) (some hashB) 0) = 1) :=
  ⟨(C1_transfer ccZero .gas (initialContext none) hashA hashB (-1)).1 (by decide),
   (C1_transfer ccZero .gas (initialContext none) hashA hashB 0).2.1 (le_refl 0) (Or.inr rfl),
   (C1_transfer ccZero .gas (initialContext none) hashA hashB 0).2.2.2 (by decide) _
     ((C1_transfer ccZero .gas (initialContext none) hashA hashB 0).2.1
       (le_refl 0) (Or.inr rfl))⟩

/-- Claim C2 (code_bug): minting 5 GAS to hashA and then transferring 3
from hashA to hashB leaves totalSupply at 5 but the balance sum at 11:
the transfer credits the sender with the amount instead of debiting it
(incBalance is called with +amount on both accounts), so the sum of
balances grows by twice the amount and the supply invariant fails. -/
theorem C2_transfer_breaks_supply_invariant :
    balanceSum .gas (applySeq ccZero (initialContext none)
        [Op.mint .gas hashA 5, Op.transfer .gas hashA hashB 3]) = 11
  ∧ tokenTotalSupply .gas (applySeq ccZero (initialContext none)
        [Op.mint .gas hashA 5, Op.transfer .gas hashA hashB 3]) = 5
  ∧ tokenBalance .gas (getAccountStateOrNew (applySeq ccZero (initialContext none)
        [Op.mint .gas hashA 5, Op.transfer .gas hashA hashB 3]) hashA) = 8
  ∧ tokenBalance .gas (getAccountStateOrNew (applySeq ccZero (initialContext none)
        [Op.mint .gas hashA 5, Op.transfer .gas hashA hashB 3]) hashB) = 3
  ∧ balanceSum .gas (applySeq ccZero (initialContext none)
        [Op.mint .gas hashA 5, Op.transfer .gas hashA hashB 3]) ≠
      tokenTotalSupply .gas (applySeq ccZero (initialContext none)
        [Op.mint .gas hashA 5, Op.transfer .gas hashA hashB 3]) := by
  refine ⟨by decide, by decide, by decide, by decide, by decide⟩

/-! ### The public-key order -/

theorem pkLt_asymm : ∀ a b : Bytes, pkLt a b = true → pkLt b a = false := by
  intro a
  induction a with
  | nil =>
    intro b h
    cases b with
    | nil => simp [pkLt] at h
    | cons y ys => simp [pkLt]
  | cons x xs ih =>
    intro b h
    cases b with
    | nil => simp [pkLt] at h
    | cons y ys =>
      simp only [pkLt] at h ⊢
      by_cases hxy : x < y
      · rw [if_neg (by omega), if_pos hxy]
      · rw [if_neg hxy] at h
        by_cases hyx : y < x
        · rw [if_pos hyx] at h
          exact absurd h (by simp)
        · rw [if_neg hyx] at h
          rw [if_neg hyx, if_neg hxy]
          exact ih ys h

theorem pkLt_trans : ∀ a b c : Bytes, pkLt a b = true → pkLt b c = true → pkLt a c = true := by
  intro a
  induction a with
  | nil =>
    intro b c hab hbc
    cases c with
    | nil =>
      cases b with
      | nil => simp [pkLt] at hab
      | cons y ys => simp [pkLt] at hbc
    | cons z zs => simp [pkLt]
  | cons x xs ih =>
    intro b c hab hbc
    cases b with
    | nil => simp [pkLt] at hab
    | cons y ys =>
      cases c with
      | nil => simp [pkLt] at hbc
      | cons z zs =>
        simp only [pkLt] at hab hbc ⊢
        by_cases hxy : x < y
        · have hyz : y ≤ z := by
            by_cases h1 : y < z
            · omega
            · rw [if_neg h1] at hbc
              by_cases h2 : z < y
              · rw [if_pos h2] at hbc
                exact absurd hbc (by simp)
              · omega
          rw [if_pos (by omega)]
        · rw [if_neg hxy] at hab
          by_cases hyx : y < x
          · rw [if_pos hyx] at hab
            exact absurd hab (by simp)
          · rw [if_neg hyx] at hab
            have hxey : x = y := by omega
            subst hxey
            by_cases hxz : x < z
            · rw [if_pos hxz]
            · rw [if_neg hxz] at hbc ⊢
              by_cases hzx : z < x
              · rw [if_pos hzx] at hbc
                exact absurd hbc (by simp)
              · rw [if_neg hzx] at hbc ⊢
                exact ih ys zs hab hbc

theorem pkLt_connex : ∀ a b : Bytes, pkLt a b = false → pkLt b a = false → a = b := by
  intro a
  induction a with
  | nil =>
    intro b hab _
    cases b with
    | nil => rfl
    | cons y ys => simp [pkLt] at hab
  | cons x xs ih =>
    intro b hab hba
    cases b with
    | nil => simp [pkLt] at hba
    | cons y ys =>
      simp only [pkLt] at hab hba
      by_cases hxy : x < y
      · rw [if_pos hxy] at hab
        exact absurd hab (by simp)
      · by_cases hyx : y < x
        · rw [if_pos hyx] at hba
          exact absurd hba (by simp)
        · have hxey : x = y := by omega
          subst hxey
          rw [if_neg hxy, if_neg hxy] at hab hba
          rw [ih ys hab hba]

theorem pkLe_isTotal : IsTotal Bytes pkLe := by
  constructor
  intro a b
  unfold pkLe
  by_cases h : pkLt b a = true
  · right
    exact pkLt_asymm b a h
  · left
    exact Bool.eq_false_iff.mpr h

theorem pkLe_isTrans : IsTrans Bytes pkLe := by
  constructor
  intro a b c hab hbc
  unfold pkLe at hab hbc ⊢
  by_cases hca : pkLt c a = true
  · by_cases hcb : pkLt c b = true
    · rw [hcb] at hbc
      exact absurd hbc (by simp)
    · have hcb' : pkLt c b = false := Bool.eq_false_iff.mpr hcb
      by_cases hbc2 : pkLt b c = true
      · have : pkLt b a = true := pkLt_trans b c a hbc2 hca
        rw [this] at hab
        exact absurd hab (by simp)
      · have heq : b = c := pkLt_connex b c (Bool.eq_false_iff.mpr hbc2) hcb'
        subst heq
        rw [hca] at hab
        exact absurd hab (by simp)
  · exact Bool.eq_false_iff.mpr hca

/-! ### uniqueKeys and the top-up loop -/

theorem uniqueKeys_nodup : ∀ l : List Bytes, (uniqueKeys l).Nodup := by
  intro l
  induction l with
  | nil => simp [uniqueKeys]
  | cons k ks ih =>
    unfold uniqueKeys
    rw [List.nodup_cons]
    constructor
    · intro hmem
      have := (List.mem_filter.mp hmem).2
      simp at this
    · exact ih.filter _

theorem uniqueKeys_subset : ∀ l : List Bytes, uniqueKeys l ⊆ l := by
  intro l
  induction l with
  | nil => simp [uniqueKeys]
  | cons k ks ih =>
    unfold uniqueKeys
    intro x hx
    rcases List.mem_cons.mp hx with h | h
    · simp [h]
    · exact List.mem_cons_of_mem _ (ih (List.mem_of_mem_filter h))

theorem uniqueKeys_length_le : ∀ l : List Bytes, (uniqueKeys l).length ≤ l.length := by
  intro l
  induction l with
  | nil => simp [uniqueKeys]
  | cons k ks ih =>
    unfold uniqueKeys
    simp only [List.length_cons]
    have h1 : ((uniqueKeys ks).filter (fun x => x ≠ k)).length ≤ (uniqueKeys ks).length :=
      List.length_filter_le _ _
    omega

theorem topUp_le : ∀ (usb res : List Bytes) (count : Nat), res.length ≤ count →
    (topUp res usb count).length ≤ count := by
  intro usb
  induction usb with
  | nil =>
    intro res count h
    exact h
  | cons k ks ih =>
    intro res count h
    unfold topUp
    by_cases hlt : res.length < count
    · rw [if_pos hlt]
      by_cases hk : k ∈ res
      · rw [if_pos hk]
        exact ih res count h
      · rw [if_neg hk]
        refine ih _ count ?_
        simp only [List.length_append, List.length_singleton]
        omega
    · rw [if_neg hlt]
      exact h

theorem topUp_nodup : ∀ (usb res : List Bytes) (count : Nat), res.Nodup →
    (topUp res usb count).Nodup := by
  intro usb
  induction usb with
  | nil =>
    intro res count h
    exact h
  | cons k ks ih =>
    intro res count h
    unfold topUp
    by_cases hlt : res.length < count
    · rw [if_pos hlt]
      by_cases hk : k ∈ res
      · rw [if_pos hk]
        exact ih res count h
      · rw [if_neg hk]
        refine ih _ count ?_
        rw [List.nodup_append]
        exact ⟨h, List.nodup_singleton k, by simpa using hk⟩
    · rw [if_neg hlt]
      exact h

theorem topUp_mem : ∀ (usb res : List Bytes) (count : Nat) (x : Bytes),
    x ∈ topUp res usb count → x ∈ res ∨ x ∈ usb := by
  intro usb
  induction usb with
  | nil =>
    intro res count x h
    exact .inl h
  | cons k ks ih =>
    intro res count x h
    unfold topUp at h
    by_cases hlt : res.length < count
    · rw [if_pos hlt] at h
      by_cases hk : k ∈ res
      · rw [if_pos hk] at h
        rcases ih res count x h with h2 | h2
        · exact .inl h2
        · exact .inr (List.mem_cons_of_mem _ h2)
      · rw [if_neg hk] at h
        rcases ih _ count x h with h2 | h2
        · rcases List.mem_append.mp h2 with h3 | h3
          · exact .inl h3
          · rw [List.mem_singleton] at h3
            exact .inr (by simp [h3])
        · exact .inr (List.mem_cons_of_mem _ h2)
    · rw [if_neg hlt] at h
      exact .inl h

theorem topUp_length_ge : ∀ (usb res : List Bytes) (count : Nat), usb.Nodup →
    min count (res.length + (usb.filter (fun k => decide (¬ k ∈ res))).length) ≤
      (topUp res usb count).length := by
  intro usb
  induction usb with
  | nil =>
    intro res count _
    simp only [List.filter_nil, List.length_nil, Nat.add_zero, topUp]
    exact min_le_right _ _
  | cons k ks ih =>
    intro res count hnd
    rw [List.nodup_cons] at hnd
    unfold topUp
    by_cases hlt : res.length < count
    · rw [if_pos hlt]
      by_cases hk : k ∈ res
      · rw [if_pos hk]
        have hfeq : (k :: ks).filter (fun x => decide (¬ x ∈ res)) =
            ks.filter (fun x => decide (¬ x ∈ res)) := by
          rw [List.filter_cons]
          simp [hk]
        rw [hfeq]
        exact ih res count hnd.2
      · rw [if_neg hk]
        have hrec := ih (res ++ [k]) count hnd.2
        have hfeq : ks.filter (fun x => decide (¬ x ∈ res ++ [k])) =
            ks.filter (fun x => decide (¬ x ∈ res)) := by
          apply List.filter_congr
          intro x hx
          have hne : x ≠ k := by
            intro he
            exact hnd.1 (he ▸ hx)
          simp [List.mem_append, hne]
        rw [hfeq, List.length_append, List.length_singleton] at hrec
        have hfcons : ((k :: ks).filter (fun x => decide (¬ x ∈ res))).length =
            1 + (ks.filter (fun x => decide (¬ x ∈ res))).length := by
          rw [List.filter_cons]
          simp [hk]
          omega
        rw [hfcons]
        have : res.length + (1 + (ks.filter (fun x => decide (¬ x ∈ res))).length) =
            res.length + 1 + (ks.filter (fun x => decide (¬ x ∈ res))).length := by omega
        rw [this]
        exact hrec
    · rw [if_neg hlt]
      have : count ≤ res.length := Nat.not_lt.mp hlt
      exact le_trans (min_le_left _ _) this

theorem length_filter_mem_split (l res : List Bytes) :
    (l.filter (fun k => decide (k ∈ res))).length +
      (l.filter (fun k => decide (¬ k ∈ res))).length = l.length := by
  induction l with
  | nil => simp
  | cons k ks ih =>
    by_cases hk : k ∈ res
    · simp only [List.filter_cons]
      rw [if_pos (by simp [hk]), if_neg (by simp [hk])]
      simp only [List.length_cons]
      omega
    · simp only [List.filter_cons]
      rw [if_neg (by simp [hk]), if_pos (by simp [hk])]
      simp only [List.length_cons]
      omega

theorem length_filter_mem_le (l res : List Bytes) (h : l.Nodup) :
    (l.filter (fun k => decide (k ∈ res))).length ≤ res.length := by
  have hnd : (l.filter (fun k => decide (k ∈ res))).Nodup := h.filter _
  have hsub : l.filter (fun k => decide (k ∈ res)) ⊆ res := by
    intro x hx
    have := List.mem_filter.mp hx
    simpa using this.2
  exact (hnd.subperm hsub).length_le

theorem topUp_length_ge_usb (usb res : List Bytes) (count : Nat) (hnd : usb.Nodup)
    (hcount : usb.length ≤ count) : usb.length ≤ (topUp res usb count).length := by
  have h1 := topUp_length_ge usb res count hnd
  have h2 := length_filter_mem_split usb res
  have h3 := length_filter_mem_le usb res hnd
  have h4 : usb.length ≤ res.length +
      (usb.filter (fun k => decide (¬ k ∈ res))).length := by omega
  exact le_trans (le_min hcount h4) h1

theorem getValidators_sorted_spec (sb : List Bytes) (vc : List (Nat × Int))
    (vals : List Validator) (hnd : (vals.map Validator.publicKey).Nodup) (hne : vc ≠ []) :
    (neoNative.getValidators sb vc vals).Pairwise pkLe
  ∧ (neoNative.getValidators sb vc vals).Nodup
  ∧ (∀ key ∈ neoNative.getValidators sb vc vals,
      key ∈ vals.map Validator.publicKey ∨ key ∈ sb)
  ∧ (neoNative.getValidators sb vc vals).length ≤ committeeSize sb vc
  ∧ (uniqueKeys sb).length ≤ (neoNative.getValidators sb vc vals).length := by
  have hfin : ∀ mid : List Bytes, mid.Nodup →
      (∀ x ∈ mid, x ∈ vals.map Validator.publicKey ∨ x ∈ sb) →
      mid.length ≤ committeeSize sb vc →
      (uniqueKeys sb).length ≤ mid.length →
      (List.insertionSort pkLe mid).Pairwise pkLe
    ∧ (List.insertionSort pkLe mid).Nodup
    ∧ (∀ key ∈ List.insertionSort pkLe mid,
        key ∈ vals.map Validator.publicKey ∨ key ∈ sb)
    ∧ (List.insertionSort pkLe mid).length ≤ committeeSize sb vc
    ∧ (uniqueKeys sb).length ≤ (List.insertionSort pkLe mid).length := by
    intro mid h1 h2 h3 h4
    have hperm := List.perm_insertionSort pkLe mid
    refine ⟨?_, ?_, ?_, ?_, ?_⟩
    · haveI := pkLe_isTotal
      haveI := pkLe_isTrans
      exact List.sorted_insertionSort pkLe mid
    · exact hperm.nodup_iff.mpr h1
    · intro key hkey
      exact h2 key (hperm.mem_iff.mp hkey)
    · rw [hperm.length_eq]
      exact h3
    · rw [hperm.length_eq]
      exact h4
  have hpermv : List.Perm ((List.insertionSort lessValidator vals).map Validator.publicKey)
      (vals.map Validator.publicKey) := (List.perm_insertionSort lessValidator vals).map _
  have hR0nd : (((List.insertionSort lessValidator vals).filter fun v =>
      v.registeredAndHasVotes || decide (v.publicKey ∈ uniqueKeys sb)).map
      Validator.publicKey).Nodup := by
    have h2 : ((List.insertionSort lessValidator vals).map Validator.publicKey).Nodup :=
      hpermv.nodup_iff.mpr hnd
    exact h2.sublist ((List.filter_sublist _).map _)
  have hR0mem : ∀ x ∈ ((List.insertionSort lessValidator vals).filter fun v =>
      v.registeredAndHasVotes || decide (v.publicKey ∈ uniqueKeys sb)).map
      Validator.publicKey, x ∈ vals.map Validator.publicKey := by
    intro x hx
    exact hpermv.mem_iff.mp (((List.filter_sublist _).map Validator.publicKey).subset hx)
  have hsbcount : sb.length ≤ committeeSize sb vc := le_max_right _ _
  have husb : (uniqueKeys sb).length ≤ committeeSize sb vc :=
    le_trans (uniqueKeys_length_le sb) hsbcount
  simp only [neoNative.getValidators, if_neg hne]
  by_cases hc : committeeSize sb vc ≤
      (((List.insertionSort lessValidator vals).filter fun v =>
        v.registeredAndHasVotes || decide (v.publicKey ∈ uniqueKeys sb)).map
        Validator.publicKey).length
  · rw [if_pos hc]
    refine hfin _ ?_ ?_ ?_ ?_
    · exact hR0nd.sublist (List.take_sublist _ _)
    · intro x hx
      exact .inl (hR0mem x (List.take_subset _ _ hx))
    · rw [List.length_take]
      exact min_le_left _ _
    · rw [List.length_take, min_eq_left hc]
      exact husb
  · rw [if_neg hc]
    refine hfin _ ?_ ?_ ?_ ?_
    · exact topUp_nodup _ _ _ hR0nd
    · intro x hx
      rcases topUp_mem _ _ _ _ hx with h | h
      · exact .inl (hR0mem x h)
      · exact .inr (uniqueKeys_subset sb h)
    · exact topUp_le _ _ _ (le_of_lt (Nat.lt_of_not_le hc))
    · exact topUp_length_ge_usb _ _ _ (uniqueKeys_nodup sb) husb

/-- Claim C7 (counterexample): with no stored committee-size tally (as in
the initial DAO, since `vote` is unimplemented) getValidators returns the
standby list exactly as configured: for the standby configuration
[[3], [2]] the output is [[3], [2]], which is not sorted ascending by
public key, refuting the claim as stated over every DAO state. -/
theorem C7_getValidators_unsorted_cex :
    neoNative.getValidators [[3], [2]] [] [] = [[3], [2]]
  ∧ pkLt [2] [3] = true
  ∧ ¬ ([[3], [2]] : List Bytes).Pairwise pkLe := by
  refine ⟨rfl, rfl, ?_⟩
  intro h
  have h1 := List.pairwise_cons.mp h
  have h2 := h1.1 [2] (by simp)
  simp [pkLe, pkLt] at h2

/-- Claim C7 (amended): when the stored tally set is empty the configured
standby list is returned as-is; when it is nonempty and the stored
validators have pairwise-distinct public keys (the store keys them by
public key), the returned list is sorted ascending by public key, has no
duplicates, draws every key from the stored validators or the standby
set, and its length is at most the committee size and at least the number
of distinct standby keys (the code can only top the list up from the
standby set, so the committee size itself is not a lower bound). -/
theorem C7_getValidators_amended (sb : List Bytes) (vc : List (Nat × Int))
    (vals : List Validator) (hnd : (vals.map Validator.publicKey).Nodup) :
    (vc = [] → neoNative.getValidators sb vc vals = sb)
  ∧ (vc ≠ [] →
      (neoNative.getValidators sb vc vals).Pairwise pkLe
    ∧ (neoNative.getValidators sb vc vals).Nodup
    ∧ (∀ key ∈ neoNative.getValidators sb vc vals,
        key ∈ vals.map Validator.publicKey ∨ key ∈ sb)
    ∧ (neoNative.getValidators sb vc vals).length ≤ committeeSize sb vc
    ∧ (uniqueKeys sb).length ≤ (neoNative.getValidators sb vc vals).length) := by
  constructor
  · intro h
    simp [neoNative.getValidators, h]
  · intro hne
    exact getValidators_sorted_spec sb vc vals hnd hne

/-- Witness for the amended C7 at a concrete DAO: one registered validator
with votes, a two-key standby set and a tally fixing committee size 3. -/
theorem C7_getValidators_amended_witness :
    (neoNative.getValidators [[2], [1]] [(3, 1)] [Validator.mk [5] true 2]).Pairwise pkLe
  ∧ (neoNative.getValidators [[2], [1]] [(3, 1)] [Validator.mk [5] true 2]).Nodup
  ∧ (∀ key ∈ neoNative.getValidators [[2], [1]] [(3, 1)] [Validator.mk [5] true 2],
      key ∈ [Validator.mk [5] true 2].map Validator.publicKey ∨ key ∈ [[2], [1]])
  ∧ (neoNative.getValidators [[2], [1]] [(3, 1)] [Validator.mk [5] true 2]).length ≤
      committeeSize [[2], [1]] [(3, 1)]
  ∧ (uniqueKeys [[2], [1]]).length ≤
      (neoNative.getValidators [[2], [1]] [(3, 1)] [Validator.mk [5] true 2]).length :=
  (C7_getValidators_amended [[2], [1]] [(3, 1)] [Validator.mk [5] true 2] (by decide)).2
    (by decide)
